import Mathlib

/-!
# falcon-editor-server: the project file tree of `controllers/fileController.js`

A shallow embedding of the tree engine of `fileController.js` (name check, path
resolution, existence test, insertion, path listing) and of its read-modify-write cycle
against the document store (`getFileStructure`, `_updateFileStructure`,
`createNewFileOrFolder`), and theorems about them.

Modelling conventions:

* JavaScript strings are lists of characters (`Str`).
* A `files` object is modelled by its own enumerable properties, listed in the order in
  which JavaScript enumerates them (`Files`). It never has an own property `__proto__`:
  an assignment to that name replaces its prototype, and the list keeps that prototype
  node under the key `__proto__`, where the enumerations skip it.
* A property read that finds no own property goes on to the prototype: the fields of the
  node that became the prototype, then the members of `Object.prototype`.
* Where such a read hands the code a `files` object as a file structure and that object
  has a `files` property of its own, the model stops with `Err.unmodelled`.
* A thrown `TypeError` (reading or writing a property of `undefined`) and a rejected
  promise are `Except.error`.
* In-place mutation of the tree is modelled by returning the updated tree.
* The collection is passed through the store operations explicitly; the project lookup,
  the success of connecting and the current time are parameters (`Env`).
-/

namespace FileController

/-- A JavaScript string, as the list of its characters. -/
abbrev Str := List Char

/-! ## Path utilities -/

/-- The source's `mongoIndex`: `str.replace(/\./g, '')`. -/
def mongoIndex (str : Str) : Str :=
  str.filter (fun c => c != '.')

/-- The method `String.prototype.split` with a one-character separator:
`"".split("/")` is `[""]`, and every separator starts a new piece. -/
def jsSplit (sep : Char) : Str → List Str
  | [] => [[]]
  | c :: cs =>
    if c = sep then [] :: jsSplit sep cs
    else
      match jsSplit sep cs with
      | [] => [[c]]
      | w :: ws => (c :: w) :: ws

/-- The first statement of `_getSubFileStructure`:
`filePath.split('/').filter(function (str) { return str.length > 0; })`. -/
def pathSegments (filePath : Str) : List Str :=
  (jsSplit '/' filePath).filter (fun str => decide (str.length > 0))

/-- Node's `path.basename(path)` (POSIX, no extension argument): scanning from the end,
skip the trailing `/` characters, then take characters up to the next `/`. -/
def basename (path : Str) : Str :=
  ((path.reverse.dropWhile (fun c => c == '/')).takeWhile (fun c => c != '/')).reverse

/-- Node's `path.dirname(path)` (POSIX). The empty path gives `.`. Otherwise the scan
runs from the end down to index 1: it skips the trailing `/` characters, then the base
name, and stops at the first `/` after it, at index `end`. Without such a `/` the result
is `/` for a path starting with `/` and `.` otherwise; with `end = 1` on a path starting
with `/` it is `//`; otherwise it is the slice of the path before `end`. -/
def dirname (path : Str) : Str :=
  match path with
  | [] => ['.']
  | c :: rest =>
    match (rest.reverse.dropWhile (fun c => c == '/')).dropWhile (fun c => c != '/') with
    | [] => if c = '/' then ['/'] else ['.']
    | _ :: before =>
      if c = '/' ∧ before = [] then ['/', '/'] else c :: before.reverse

/-- The characters matched by the regular expression class `\s`: the ECMAScript white
space and line terminator code points. -/
def isJsWhiteSpace (c : Char) : Bool :=
  let n := c.toNat
  n == 0x09 || n == 0x0A || n == 0x0B || n == 0x0C || n == 0x0D || n == 0x20 ||
  n == 0xA0 || n == 0x1680 || (0x2000 ≤ n && n ≤ 0x200A) || n == 0x2028 ||
  n == 0x2029 || n == 0x202F || n == 0x205F || n == 0x3000 || n == 0xFEFF

/-- The source's `_isValidFileName`:
`!(/\s/g.test(fileName) || /\//g.test(fileName))` with `fileName = path.basename(filePath)`. -/
def _isValidFileName (filePath : Str) : Bool :=
  let fileName := basename filePath
  !(fileName.any isJsWhiteSpace || fileName.any (fun c => c == '/'))

/-! ## Data model -/

/-- The attributes every node object carries: the `newAddition` literal of
`_createNewFileOrFolder` (`name`, `created`, `author`, `type`, `path`). -/
structure Attrs where
  name : Str
  created : Str
  author : Option Str
  type : Str
  path : Str
deriving DecidableEq, Repr

/-- A `files` object: its own properties in enumeration order. Each property maps a key
to a node object, which either has no `files` attribute (`plain`) or has one
(`withFiles`, carrying the child object). An entry under the key `__proto__` is not an
own property: it holds the node that an assignment to `__proto__` made the prototype of
the object. -/
inductive Files where
  | nil : Files
  | plain (key : Str) (attrs : Attrs) (rest : Files) : Files
  | withFiles (key : Str) (attrs : Attrs) (files : Files) (rest : Files) : Files
deriving DecidableEq, Repr

/-- A node object: its attributes and, when present, its `files` attribute. -/
structure Node where
  attrs : Attrs
  files : Option Files
deriving DecidableEq, Repr

/-- The stored document of a project: `_id`, `projectId`, `files`, and the `paths` field
that `getFileStructure` attaches to a fetched document. -/
structure FileStructure where
  _id : Nat
  projectId : Nat
  files : Files
  paths : Option (List Str)
deriving DecidableEq, Repr

/-- The values that occur where the source expects a file structure: `undefined`,
`false` (the not-found result of `_getSubFileStructure`), the document, or a node; and
what a property read can inherit from a prototype: `null` and strings (fields of a node),
a `files` object (the field `files` of a node), and the members of `Object.prototype`
(`builtin`, named by the property; under `__proto__` it is `Object.prototype` itself). -/
inductive Val where
  | undefined : Val
  | jsFalse : Val
  | root (fileStructure : FileStructure) : Val
  | node (n : Node) : Val
  | jsNull : Val
  | string (s : Str) : Val
  | filesObject (files : Files) : Val
  | builtin (name : Str) : Val
deriving DecidableEq, Repr

/-- The errors of the engine: the two `Error`s the source throws and the `TypeError` of
a property access on `undefined`; `unmodelled` marks the one situation the model does
not follow (see `Val.files`). -/
inductive Err where
  | invalidFileName : Err
  | pathInvalidOrFileExists : Err
  | typeError : Err
  | unmodelled : Err
deriving DecidableEq, Repr

/-- The `fileInfo` argument of `_createNewFileOrFolder`. -/
structure FileInfo where
  projectName : Str
  filePath : Str
  type : Str
  projectId : Option Str
  userId : Option Str
deriving DecidableEq, Repr

deriving instance DecidableEq for Except

/-- The message of each error. -/
def Err.message : Err → String
  | .invalidFileName => "Invalid File Name"
  | .pathInvalidOrFileExists => "Path is Invalid or File Already Exists"
  | .typeError => "TypeError"
  | .unmodelled => "(not modelled)"

/-! ## Objects as ordered property lists -/

/-- One property holding the node `n`, in front of `rest`. -/
def Files.entry (key : Str) (n : Node) (rest : Files) : Files :=
  match n.files with
  | none => .plain key n.attrs rest
  | some c => .withFiles key n.attrs c rest

/-- The property name `__proto__`. -/
def protoKey : Str := "__proto__".toList

/-- The names of the members of `Object.prototype` other than `__proto__`. -/
def objectPrototypeNames : List Str :=
  ["constructor".toList, "toString".toList, "toLocaleString".toList, "valueOf".toList,
   "hasOwnProperty".toList, "isPrototypeOf".toList, "propertyIsEnumerable".toList,
   "__defineGetter__".toList, "__defineSetter__".toList, "__lookupGetter__".toList,
   "__lookupSetter__".toList]

/-- The node stored under `key`: the own property of that name, `none` when there is
none; under `__proto__`, the node that is the prototype, `none` while the prototype is
`Object.prototype`. -/
def Files.get (key : Str) : Files → Option Node
  | .nil => none
  | .plain k a rest => if k = key then some ⟨a, none⟩ else rest.get key
  | .withFiles k a c rest => if k = key then some ⟨a, some c⟩ else rest.get key

/-- The own enumerable property values in enumeration order, as `_.any` and `_.each` see
them: the prototype is not among them. -/
def Files.values : Files → List Node
  | .nil => []
  | .plain k a rest => if k = protoKey then rest.values else ⟨a, none⟩ :: rest.values
  | .withFiles k a c rest =>
    if k = protoKey then rest.values else ⟨a, some c⟩ :: rest.values

/-- The own enumerable property names in enumeration order. -/
def Files.ownKeys : Files → List Str
  | .nil => []
  | .plain k _ rest => if k = protoKey then rest.ownKeys else k :: rest.ownKeys
  | .withFiles k _ _ rest => if k = protoKey then rest.ownKeys else k :: rest.ownKeys

/-- The own property `key` of a node object, if it has one. -/
def Node.field (n : Node) (key : Str) : Option Val :=
  if key = "name".toList then some (.string n.attrs.name)
  else if key = "created".toList then some (.string n.attrs.created)
  else if key = "author".toList then
    some (match n.attrs.author with
      | some author => .string author
      | none => .jsNull)
  else if key = "type".toList then some (.string n.attrs.type)
  else if key = "path".toList then some (.string n.attrs.path)
  else if key = "files".toList then n.files.map .filesObject
  else none

/-- What `Object.prototype` gives for a property name: one of its members, or
`undefined`. Its accessor `__proto__` gives the prototype of the object that is read,
here `Object.prototype` itself. -/
def objectPrototypeMember (key : Str) : Val :=
  if key = protoKey ∨ key ∈ objectPrototypeNames then .builtin key else .undefined

/-- What the prototype chain of a `files` object gives for a name that is not an own
property: a field of the node that is the prototype, if there is one, and otherwise a
member of `Object.prototype`. -/
def Files.inherited (key : Str) (files : Files) : Val :=
  match files.get protoKey with
  | some proto =>
    match proto.field key with
    | some value => value
    | none => objectPrototypeMember key
  | none => objectPrototypeMember key

/-- The property read `files[key]`: the own property (under `__proto__`, the prototype
node), else what the prototype chain gives. -/
def Files.read (key : Str) (files : Files) : Val :=
  match files.get key with
  | some n => .node n
  | none => files.inherited key

/-- Whether a value counts as true in a condition. -/
def Val.truthy : Val → Bool
  | .undefined => false
  | .jsFalse => false
  | .jsNull => false
  | .string s => !s.isEmpty
  | .root _ => true
  | .node _ => true
  | .filesObject _ => true
  | .builtin _ => true

/-- The array index a property key denotes, if any: the key is the canonical decimal
numeral of an integer below `2^32 - 1`. JavaScript enumerates such keys first, in
ascending numeric order, and the other keys after them in creation order. -/
def arrayIndex? (key : Str) : Option Nat :=
  match key with
  | [] => none
  | c :: cs =>
    if (c :: cs).all Char.isDigit ∧ (c ≠ '0' ∨ cs = []) then
      let n := (c :: cs).foldl (fun acc d => 10 * acc + (d.toNat - 48)) 0
      if n < 4294967295 then some n else none
    else none

/-- Assignment to an existing own property: the value changes, the position stays. -/
def Files.replace (key : Str) (n : Node) : Files → Files
  | .nil => .nil
  | .plain k a rest =>
    if k = key then Files.entry key n rest else .plain k a (rest.replace key n)
  | .withFiles k a c rest =>
    if k = key then Files.entry key n rest else .withFiles k a c (rest.replace key n)

/-- Creation of a property whose key is not an array index: it is enumerated last. -/
def Files.append (key : Str) (n : Node) : Files → Files
  | .nil => Files.entry key n .nil
  | .plain k a rest => .plain k a (rest.append key n)
  | .withFiles k a c rest => .withFiles k a c (rest.append key n)

/-- Creation of a property whose key is the array index `i`: it is enumerated after the
array indices below `i` and before everything else. -/
def Files.insertIndex (i : Nat) (key : Str) (n : Node) : Files → Files
  | .nil => Files.entry key n .nil
  | .plain k a rest =>
    match arrayIndex? k with
    | some j =>
      if j < i then .plain k a (rest.insertIndex i key n)
      else Files.entry key n (.plain k a rest)
    | none => Files.entry key n (.plain k a rest)
  | .withFiles k a c rest =>
    match arrayIndex? k with
    | some j =>
      if j < i then .withFiles k a c (rest.insertIndex i key n)
      else Files.entry key n (.withFiles k a c rest)
    | none => Files.entry key n (.withFiles k a c rest)

/-- The assignment `files.__proto__ = n`: it creates no own property; `n` becomes the
prototype, in place of an earlier prototype node. -/
def Files.setPrototype (n : Node) (files : Files) : Files :=
  match files.get protoKey with
  | some _ => files.replace protoKey n
  | none => files.append protoKey n

/-- The assignment `files[key] = n`: for `__proto__` it replaces the prototype; otherwise
it changes the own property of that name or creates it. -/
def Files.set (key : Str) (n : Node) (files : Files) : Files :=
  if key = protoKey then files.setPrototype n
  else
    match files.get key with
    | some _ => files.replace key n
    | none =>
      match arrayIndex? key with
      | some i => files.insertIndex i key n
      | none => files.append key n

/-- The property read `value.files`: it throws on `undefined` and `null`, gives the
`files` of the document and of a node, and is `undefined` (`none`) on `false`, on a node
without the attribute, on a string and on a member of `Object.prototype`. A `files`
object read as a file structure has it only if it has a property named `files` itself
(own, or inherited from a folder node that is its prototype): that case is not modelled. -/
def Val.files : Val → Except Err (Option Files)
  | .undefined => .error .typeError
  | .jsNull => .error .typeError
  | .jsFalse => .ok none
  | .root fileStructure => .ok (some fileStructure.files)
  | .node n => .ok n.files
  | .string _ => .ok none
  | .builtin _ => .ok none
  | .filesObject files =>
    match files.read "files".toList with
    | .undefined => .ok none
    | _ => .error .unmodelled

/-! ## The tree engine -/

/-- The inner function `traverseFileStructure` of `_getSubFileStructure`. The test
`_fileStructure.files[mongoIndex(filePathStructure[0])]` reads a property of
`_fileStructure.files`, which throws when that is `undefined`; when the value read is
truthy the walk goes on from it, otherwise the result is `false`. -/
def traverseFileStructure (_fileStructure : Val) : List Str → Except Err Val
  | [] => .ok _fileStructure
  | segment :: filePathStructure =>
    match _fileStructure.files with
    | .error e => .error e
    | .ok none => .error .typeError
    | .ok (some files) =>
      if (files.read (mongoIndex segment)).truthy then
        traverseFileStructure (files.read (mongoIndex segment)) filePathStructure
      else .ok .jsFalse

/-- The source's `_getSubFileStructure`. -/
def _getSubFileStructure (fileStructure : Val) (filePath : Str) : Except Err Val :=
  traverseFileStructure fileStructure (pathSegments filePath)

/-- The call `_.any(files, function (file) { return file.name === fileName; })` over the
own enumerable properties: false on `undefined`. -/
def anyNamed (files : Option Files) (fileName : Str) : Bool :=
  match files with
  | none => false
  | some f => f.values.any (fun file => decide (file.attrs.name = fileName))

/-- The source's `_isFileInFileStructre`. -/
def _isFileInFileStructre (fileStructure : Val) (filePath : Str) : Except Err Bool :=
  let fileName := basename filePath
  let fileDirname := dirname filePath
  let subFileStructure : Except Err Val :=
    if fileDirname ≠ ['.'] then _getSubFileStructure fileStructure fileDirname
    else .ok fileStructure
  match subFileStructure with
  | .error e => .error e
  | .ok sub =>
    match sub.files with
    | .error e => .error e
    | .ok files => .ok (anyNamed files fileName)

/-- The source's `_isPathValidAndFileDoesNotExistAtPath`: three branches, each the
negation of `_isFileInFileStructre`. -/
def _isPathValidAndFileDoesNotExistAtPath (fileStructure : Val) (filePath : Str) :
    Except Err Bool :=
  let fileDirname := dirname filePath
  if fileDirname = [] then (_isFileInFileStructre fileStructure filePath).map (fun b => !b)
  else if fileDirname = ['.'] then
    (_isFileInFileStructre fileStructure filePath).map (fun b => !b)
  else (_isFileInFileStructre fileStructure filePath).map (fun b => !b)

/-- The effect of `subFileStructure.files[key] = newAddition` on the `files` object the
walk started from, where `subFileStructure` is the node reached by the segments: the
walk of `traverseFileStructure` through nodes (own properties, or the prototype node
under `__proto__`), rebuilding the objects on the way back. -/
def Files.update (key : Str) (newAddition : Node) (files : Files) : List Str → Files
  | [] => files.set key newAddition
  | segment :: filePathStructure =>
    match files.get (mongoIndex segment) with
    | none => files
    | some sub =>
      match sub.files with
      | none => files
      | some subFiles =>
        files.replace (mongoIndex segment)
          ⟨sub.attrs, some (Files.update key newAddition subFiles filePathStructure)⟩

/-- The source's `_appendToFileStructure`. The assignment
`subFileStructure.files[mongoIndex(fileName)] = newAddition` throws when
`subFileStructure.files` is `undefined`; the returned value is the mutated document. -/
def _appendToFileStructure (fileStructure : FileStructure) (filePath : Str)
    (newAddition : Node) : Except Err FileStructure :=
  let fileDirname := if dirname filePath = ['.'] then [] else dirname filePath
  let fileName := basename filePath
  match _isFileInFileStructre (.root fileStructure) filePath with
  | .error e => .error e
  | .ok true => .ok fileStructure
  | .ok false =>
    match _getSubFileStructure (.root fileStructure) fileDirname with
    | .error e => .error e
    | .ok subFileStructure =>
      match subFileStructure.files with
      | .error e => .error e
      | .ok none => .error .typeError
      | .ok (some _) =>
        .ok { fileStructure with
              files := fileStructure.files.update (mongoIndex fileName) newAddition
                (pathSegments fileDirname) }

/-- The value `fileInfo.userId || null`: an absent or empty `userId` gives `null`. -/
def userIdOrNull (fileInfo : FileInfo) : Option Str :=
  match fileInfo.userId with
  | some userId => if userId = [] then none else some userId
  | none => none

/-- The object literal `newAddition` of `_createNewFileOrFolder`, with `files = {}` when
the type is `folder`; `created` is the formatted current time. -/
def newAddition (fileInfo : FileInfo) (created : Str) : Node :=
  { attrs := { name := basename fileInfo.filePath, created := created,
               author := userIdOrNull fileInfo, type := fileInfo.type,
               path := fileInfo.filePath },
    files := if fileInfo.type = "folder".toList then some .nil else none }

/-- The source's `_createNewFileOrFolder`, as its promise chain. `fetched` is what
`getFileStructure(projectId || projectName)` resolves to (`none` when it rejects or
resolves to `undefined`) and `created` the formatted current time. The `.catch` between
the second and third step turns every earlier rejection, the invalid-name error included,
into the value `undefined` for the third step. -/
def _createNewFileOrFolder (fileInfo : FileInfo) (updatefileStructure : Option FileStructure)
    (fetched : Option FileStructure) (created : Str) : Except Err FileStructure :=
  let filePath := fileInfo.filePath
  let step1 : Except Err Unit :=
    if !_isValidFileName filePath then .error .invalidFileName else .ok ()
  let step2 : Except Err (Option FileStructure) :=
    match step1 with
    | .error e => .error e
    | .ok () =>
      match updatefileStructure with
      | some u => .ok (some u)
      | none => .ok fetched
  let caught : Option FileStructure :=
    match step2 with
    | .error _ => none
    | .ok v => v
  let fileStructure : Val :=
    match caught with
    | none => .undefined
    | some fs => .root fs
  match _isPathValidAndFileDoesNotExistAtPath fileStructure filePath with
  | .error e => .error e
  | .ok false => .error .pathInvalidOrFileExists
  | .ok true =>
    match caught with
    | none => .error .typeError
    | some fs => _appendToFileStructure fs filePath (newAddition fileInfo created)

/-- The document in memory after a call that was handed `fileStructure`: the returned
(mutated) document on success, and the unmodified one when the call threw, since every
throw precedes the single assignment. -/
def treeAfter (fileStructure : FileStructure) (result : Except Err FileStructure) :
    FileStructure :=
  match result with
  | .ok updated => updated
  | .error _ => fileStructure

/-- The inner function `getPaths` of `getPathsForFileStructure`, with the array
`filePaths` passed through: `_.each` visits the own enumerable properties (not the
prototype); every node appends its `path`, and a node whose `type` is `folder` then lists
its `files` (`_.each` over `undefined` does nothing). -/
def getPaths : Files → List Str → List Str
  | .nil, filePaths => filePaths
  | .plain k a rest, filePaths =>
    if k = protoKey then getPaths rest filePaths else getPaths rest (filePaths ++ [a.path])
  | .withFiles k a c rest, filePaths =>
    if k = protoKey then getPaths rest filePaths
    else
      let pushed := filePaths ++ [a.path]
      getPaths rest (if a.type = "folder".toList then getPaths c pushed else pushed)

/-- The source's `getPathsForFileStructure` with `isFilesAttribute` left out (false). -/
def getPathsForFileStructure (fileStructure : FileStructure) : List Str :=
  getPaths fileStructure.files []

/-- The source's `getPathsForFileStructure` with `isFilesAttribute` true: the argument
is itself a `files` object. -/
def getPathsForFilesAttribute (files : Files) : List Str :=
  getPaths files []

/-- The document `getFileStructure` creates for a project without one: `files: {}`. -/
def emptyFileStructure (_id projectId : Nat) : FileStructure :=
  { _id := _id, projectId := projectId, files := .nil, paths := none }

/-! ## Specification-level notions -/

/-- The listing in the words of the specification: a pre-order walk that emits the path
of every child (own enumerable property) in the enumeration order of its mapping and,
for a child whose type is `folder`, the whole listing of that child's children before
the next sibling. -/
def preorderPaths : Files → List Str
  | .nil => []
  | .plain k a rest =>
    if k = protoKey then preorderPaths rest else a.path :: preorderPaths rest
  | .withFiles k a c rest =>
    if k = protoKey then preorderPaths rest
    else
      (a.path :: (if a.type = "folder".toList then preorderPaths c else [])) ++
        preorderPaths rest

/-- Every node, at every depth, is stored under the sanitized form of its name. -/
def Files.KeysOk : Files → Prop
  | .nil => True
  | .plain k a rest => k = mongoIndex a.name ∧ rest.KeysOk
  | .withFiles k a c rest => k = mongoIndex a.name ∧ c.KeysOk ∧ rest.KeysOk

/-- The documents built from one without nodes by successful calls of
`_createNewFileOrFolder`, each call being handed the document of the previous one. A
call that ends in `Err.unmodelled` is not a step. -/
inductive Reachable : FileStructure → Prop
  | empty (fileStructure : FileStructure) :
      fileStructure.files = .nil → Reachable fileStructure
  | insert (fileStructure updated : FileStructure) (fileInfo : FileInfo) (created : Str) :
      Reachable fileStructure →
      _createNewFileOrFolder fileInfo none (some fileStructure) created = .ok updated →
      Reachable updated

/-- The request to create `filePath` with the given type, without author. -/
def request (filePath type : String) : FileInfo :=
  { projectName := [], filePath := filePath.toList, type := type.toList,
    projectId := none, userId := none }

/-- The document after the request was applied to a fetched document at a fixed time:
the mutated document, or the unmodified one when the call failed. -/
def applyRequest (fileStructure : FileStructure) (filePath type : String) : FileStructure :=
  treeAfter fileStructure
    (_createNewFileOrFolder (request filePath type) none (some fileStructure) "t".toList)

/-! ## Invariants of the tree -/

/-- The entries of a `files` object as pairs of key and node, in enumeration order: its
own properties and, under `__proto__`, its prototype node. -/
def Files.entries : Files → List (Str × Node)
  | .nil => []
  | .plain k a rest => (k, ⟨a, none⟩) :: rest.entries
  | .withFiles k a c rest => (k, ⟨a, some c⟩) :: rest.entries

/-- No key occurs twice in a `files` object, at every depth. -/
def Files.DistinctKeys : Files → Prop
  | .nil => True
  | .plain k _ rest => rest.get k = none ∧ rest.DistinctKeys
  | .withFiles k _ c rest => rest.get k = none ∧ c.DistinctKeys ∧ rest.DistinctKeys

/-- At every depth, a node has a `files` attribute exactly when its type is `folder`. -/
def Files.ShapeOk : Files → Prop
  | .nil => True
  | .plain _ a rest => a.type ≠ "folder".toList ∧ rest.ShapeOk
  | .withFiles _ a c rest => a.type = "folder".toList ∧ c.ShapeOk ∧ rest.ShapeOk

/-- The keys of the entries of a `files` object, in the order of the entries. -/
def Files.keys : Files → List Str
  | .nil => []
  | .plain k _ rest => k :: rest.keys
  | .withFiles k _ _ rest => k :: rest.keys

/-- The order in which JavaScript enumerates two own property keys, whatever the order of
their creation: an array index comes before a key that is none, and array indices come
in ascending numeric order. Between two keys that are no array indices the enumeration
order is the order of creation, and nothing is asked here. -/
def keyBefore (k k' : Str) : Bool :=
  match arrayIndex? k, arrayIndex? k' with
  | some i, some j => decide (i < j)
  | some _, none => true
  | none, some _ => false
  | none, none => true

/-- A list of keys is in enumeration order: the array indices come first, ascending. -/
def enumerationOrdered (keys : List Str) : Prop :=
  keys.Pairwise (fun k k' => keyBefore k k' = true)

/-- At every depth, the entries of a `files` object are in enumeration order. -/
def Files.OrderOk : Files → Prop
  | .nil => True
  | .plain k _ rest => (∀ k' ∈ rest.keys, keyBefore k k' = true) ∧ rest.OrderOk
  | .withFiles k _ c rest =>
    (∀ k' ∈ rest.keys, keyBefore k k' = true) ∧ c.OrderOk ∧ rest.OrderOk

/-- A node has a `files` attribute exactly when its type is `folder`, and the nodes
below it are of that shape too. -/
def Node.ShapeOk (n : Node) : Prop :=
  match n.files with
  | none => n.attrs.type ≠ "folder".toList
  | some c => n.attrs.type = "folder".toList ∧ c.ShapeOk

/-- The segments that lead to the parent of a path, as `_isFileInFileStructre` and
`_appendToFileStructure` walk them: those of `path.dirname`, with `.` standing for the
root. -/
def parentSegments (filePath : Str) : List Str :=
  pathSegments (if dirname filePath = ['.'] then [] else dirname filePath)

/-- The names joined by `/`. -/
def joinNames (names : List Str) : Str :=
  List.intercalate ['/'] names

/-- The path invariant in the words of the specification: below the ancestors with the
given names, from the root down, the `path` of every node is the `/`-join of the names
of its ancestors followed by its own name. -/
def Files.PathIsJoin : Files → List Str → Prop
  | .nil, _ => True
  | .plain _ a rest, ancestors =>
    a.path = joinNames (ancestors ++ [a.name]) ∧ rest.PathIsJoin ancestors
  | .withFiles _ a c rest, ancestors =>
    a.path = joinNames (ancestors ++ [a.name]) ∧ c.PathIsJoin (ancestors ++ [a.name]) ∧
      rest.PathIsJoin ancestors

/-- The path invariant of the code: below the ancestors with the given names, the name
of every node is the base name of its `path`, and the sanitized names of its ancestors
are the sanitized segments that lead to the parent of its `path`. -/
def Files.PathsOk : Files → List Str → Prop
  | .nil, _ => True
  | .plain _ a rest, ancestors =>
    a.name = basename a.path ∧
    ancestors.map mongoIndex = (parentSegments a.path).map mongoIndex ∧
    rest.PathsOk ancestors
  | .withFiles _ a c rest, ancestors =>
    a.name = basename a.path ∧
    ancestors.map mongoIndex = (parentSegments a.path).map mongoIndex ∧
    c.PathsOk (ancestors ++ [a.name]) ∧ rest.PathsOk ancestors

/-! ## The structure store -/

/-- The collection `project_file_structre`: its documents in insertion order, and the
`_id` that the next inserted document receives. -/
structure Store where
  documents : List FileStructure
  nextId : Nat
deriving DecidableEq, Repr

/-- The query `findOneAsync({ projectId: ... })`: the first matching document, or `null`. -/
def Store.findOneByProjectId (store : Store) (projectId : Nat) : Option FileStructure :=
  store.documents.find? (fun document => decide (document.projectId = projectId))

/-- The query `findOneAsync({ _id: ... })`: the first matching document, or `null`. -/
def Store.findOneById (store : Store) (_id : Nat) : Option FileStructure :=
  store.documents.find? (fun document => decide (document._id = _id))

/-- The call `insertAsync({ projectId: ..., files: {} })`: the collection with the new
document, and the inserted document (element `[0]` of the result). -/
def Store.insertAsync (store : Store) (projectId : Nat) : Store × FileStructure :=
  ({ documents := store.documents ++ [emptyFileStructure store.nextId projectId],
     nextId := store.nextId + 1 },
   emptyFileStructure store.nextId projectId)

/-- The effect of `{ $set: { files: ... } }` on the first document with the given `_id`:
its whole `files` value is replaced. -/
def setFilesOfFirst (_id : Nat) (files : Files) : List FileStructure → List FileStructure
  | [] => []
  | document :: rest =>
    if document._id = _id then { document with files := files } :: rest
    else document :: setFilesOfFirst _id files rest

/-- The call `updateAsync({ _id: ... }, { $set: { files: ... } }, { w: 1 })`. -/
def Store.updateAsync (store : Store) (_id : Nat) (files : Files) : Store :=
  { store with documents := setFilesOfFirst _id files store.documents }

/-- What the operations take from outside the file: the project lookup `getProject`
(giving the project's id, or `none` when it throws or rejects), whether
`mongoClient.connectAsync` succeeds in the fetch and in the update, and the formatted
current time. -/
structure Env where
  getProject : Str → Option Nat
  fetchConnects : Bool
  updateConnects : Bool
  created : Str

/-- The source's `getFileStructure`: the collection afterwards and the value the promise
delivers to `_createNewFileOrFolder`, `none` standing for a rejection (`getProject`
failed) as well as for `undefined` (the connection failed and the `.catch` logged it).
A project without a document gets `{ projectId, files: {} }` inserted; the delivered
document carries `paths`. -/
def getFileStructure (env : Env) (store : Store) (projectIdOrName : Str) :
    Store × Option FileStructure :=
  match env.getProject projectIdOrName with
  | none => (store, none)
  | some projectId =>
    if env.fetchConnects then
      let found : Store × FileStructure :=
        match store.findOneByProjectId projectId with
        | some projectFileStructure => (store, projectFileStructure)
        | none => store.insertAsync projectId
      (found.1, some { found.2 with paths := some (getPathsForFileStructure found.2) })
    else (store, none)

/-- The source's `_updateFileStructure`: the collection afterwards and the outcome, `none`
when the promise rejects (the connection failed), otherwise the document read back by
`findOneAsync({ _id: ... })`. -/
def _updateFileStructure (env : Env) (store : Store) (fileStructure : FileStructure) :
    Store × Option (Option FileStructure) :=
  if env.updateConnects then
    let updated := store.updateAsync fileStructure._id fileStructure.files
    (updated, some (updated.findOneById fileStructure._id))
  else (store, none)

/-- The argument `projectId || projectName` of `getFileStructure`: an empty `projectId`
is falsy. -/
def projectIdOrName (fileInfo : FileInfo) : Str :=
  match fileInfo.projectId with
  | some projectId => if projectId = [] then fileInfo.projectName else projectId
  | none => fileInfo.projectName

/-- The fetch inside `_createNewFileOrFolder` when no document is passed in: the second
`.then` calls `getFileStructure` only if the name check of the first one did not throw. -/
def fetchPhase (env : Env) (store : Store) (fileInfo : FileInfo) :
    Store × Option FileStructure :=
  if _isValidFileName fileInfo.filePath then
    getFileStructure env store (projectIdOrName fileInfo)
  else (store, none)

/-- The fields `createNewFileOrFolder` reads from the request. -/
structure Request where
  projectName : Str
  type : Str
  projectId : Option Str
  filePath : Str
deriving DecidableEq, Repr

/-- The responses of `createNewFileOrFolder`: status 400 with or without a message, and
status 201 with the re-read document as JSON. -/
inductive Response where
  | badRequest (message : Option String) : Response
  | created (fileStructure : Option FileStructure) : Response
deriving DecidableEq, Repr

/-- The `fileInfo` object that `createNewFileOrFolder` builds from the request. -/
def Request.fileInfo (req : Request) : FileInfo :=
  { projectName := req.projectName, filePath := req.filePath, type := req.type,
    projectId := req.projectId, userId := none }

/-- The source's `createNewFileOrFolder`: the type check, then `_createNewFileOrFolder`
(with its fetch), then `_updateFileStructure` if that succeeded; every rejection ends in
status 400. -/
def createNewFileOrFolder (env : Env) (store : Store) (req : Request) : Store × Response :=
  if req.type ≠ "file".toList ∧ req.type ≠ "folder".toList then
    (store, .badRequest (some "Invalid File Type Specified"))
  else
    let fetched := fetchPhase env store req.fileInfo
    match _createNewFileOrFolder req.fileInfo none fetched.2 env.created with
    | .error _ => (fetched.1, .badRequest none)
    | .ok updatedFileStructure =>
      match _updateFileStructure env fetched.1 updatedFileStructure with
      | (persisted, some fileStructure) => (persisted, .created fileStructure)
      | (persisted, none) => (persisted, .badRequest none)

/-- Two `createNewFileOrFolder` operations scheduled so that both fetches complete before
either update: fetch of the first, fetch of the second, then mutation and update of the
first, then mutation and update of the second. The result is the collection after the
first update and the collection at the end, or `none` if one of the two engine steps
failed. -/
def interleavedCreate (env : Env) (store : Store) (first second : Request) :
    Option (Store × Store) :=
  let fetchedFirst := fetchPhase env store first.fileInfo
  let fetchedSecond := fetchPhase env fetchedFirst.1 second.fileInfo
  match _createNewFileOrFolder first.fileInfo none fetchedFirst.2 env.created,
        _createNewFileOrFolder second.fileInfo none fetchedSecond.2 env.created with
  | .ok updatedFirst, .ok updatedSecond =>
    let afterFirst := (_updateFileStructure env fetchedSecond.1 updatedFirst).1
    some (afterFirst, (_updateFileStructure env afterFirst updatedSecond).1)
  | _, _ => none

/-- An environment in which every project name resolves to project 7, the connections
succeed and the time is fixed. -/
def sampleEnv : Env :=
  { getProject := fun _ => some 7, fetchConnects := true, updateConnects := true,
    created := "t".toList }

/-- The request to create `filePath` of the given type in the project `demo`. -/
def sampleRequest (filePath type : String) : Request :=
  { projectName := "demo".toList, type := type.toList, projectId := none,
    filePath := filePath.toList }

/-- The collection holding the freshly created, empty document of project 7. -/
def freshStore : Store :=
  { documents := [emptyFileStructure 0 7], nextId := 1 }

/-- The collection without documents. -/
def emptyStore : Store :=
  { documents := [], nextId := 0 }

/-! ## Path utilities: lemmas -/

theorem jsSplit_ne_nil (sep : Char) (s : Str) : jsSplit sep s ≠ [] := by
  cases s with
  | nil => simp [jsSplit]
  | cons c cs =>
    unfold jsSplit
    split
    · simp
    · split <;> simp

theorem jsSplit_append_sep (sep : Char) (xs ys : Str) :
    jsSplit sep (xs ++ sep :: ys) = jsSplit sep xs ++ jsSplit sep ys := by
  induction xs with
  | nil => simp [jsSplit]
  | cons c cs ih =>
    by_cases h : c = sep
    · simp [jsSplit, h, ih]
    · have hne := jsSplit_ne_nil sep cs
      cases hcs : jsSplit sep cs with
      | nil => exact absurd hcs hne
      | cons w ws => simp [jsSplit, h, ih, hcs]

theorem jsSplit_of_no_sep (sep : Char) (w : Str) (h : ∀ c ∈ w, c ≠ sep) :
    jsSplit sep w = [w] := by
  induction w with
  | nil => simp [jsSplit]
  | cons c cs ih =>
    have hc : c ≠ sep := h c (by simp)
    have hcs : jsSplit sep cs = [cs] := ih (fun d hd => h d (by simp [hd]))
    simp [jsSplit, hc, hcs]

theorem pathSegments_nil : pathSegments [] = [] := by
  simp [pathSegments, jsSplit]

theorem pathSegments_append_slash (xs ys : Str) :
    pathSegments (xs ++ '/' :: ys) = pathSegments xs ++ pathSegments ys := by
  simp [pathSegments, jsSplit_append_sep]

theorem pathSegments_word (w : Str) (hw : w ≠ []) (h : ∀ c ∈ w, c ≠ '/') :
    pathSegments w = [w] := by
  have hlen : 0 < w.length := List.length_pos.mpr hw
  simp [pathSegments, jsSplit_of_no_sep '/' w h, hlen]

theorem pathSegments_slashes (s : Str) (h : ∀ c ∈ s, c = '/') : pathSegments s = [] := by
  induction s with
  | nil => exact pathSegments_nil
  | cons c cs ih =>
    have hc : c = '/' := h c (by simp)
    subst hc
    have := pathSegments_append_slash [] cs
    simp only [List.nil_append] at this
    rw [this, pathSegments_nil, ih (fun d hd => h d (by simp [hd]))]
    rfl

theorem pathSegments_word_slashes (w s : Str) (hw : w ≠ []) (h : ∀ c ∈ w, c ≠ '/')
    (hs : ∀ c ∈ s, c = '/') : pathSegments (w ++ s) = [w] := by
  cases s with
  | nil => simpa using pathSegments_word w hw h
  | cons c cs =>
    have hc : c = '/' := hs c (by simp)
    subst hc
    rw [pathSegments_append_slash, pathSegments_word w hw h,
      pathSegments_slashes cs (fun d hd => hs d (by simp [hd]))]
    rfl

/-- The backwards scan shared by `basename` and `dirname`: a string is a directory part
that is empty or ends in `/`, then a word without `/`, then trailing `/` characters. -/
theorem scan_decomposition (l : Str) :
    let r := l.reverse.dropWhile (fun c => c == '/')
    let w := r.takeWhile (fun c => c != '/')
    let r2 := r.dropWhile (fun c => c != '/')
    let s := l.reverse.takeWhile (fun c => c == '/')
    l = r2.reverse ++ w.reverse ++ s.reverse ∧ (∀ c ∈ s, c = '/') ∧ (∀ c ∈ w, c ≠ '/') ∧
      (r2 = [] ∨ ∃ before, r2 = '/' :: before) ∧ (w = [] → r = []) := by
  intro r w r2 s
  have h1 : s ++ r = l.reverse := List.takeWhile_append_dropWhile _ _
  have h2 : w ++ r2 = r := List.takeWhile_append_dropWhile _ _
  refine ⟨?_, ?_, ?_, ?_, ?_⟩
  · have : l.reverse = s ++ (w ++ r2) := by rw [h2, h1]
    have h3 := congrArg List.reverse this
    simpa [List.append_assoc] using h3
  · intro c hc
    have := List.mem_takeWhile_imp hc
    simpa using this
  · intro c hc
    have := List.mem_takeWhile_imp hc
    simpa using this
  · cases h : r2 with
    | nil => exact Or.inl rfl
    | cons x before =>
      right
      refine ⟨before, ?_⟩
      have hx := List.head?_dropWhile_not (fun c => c != '/') r
      have hr2 : r.dropWhile (fun c => c != '/') = x :: before := h
      rw [hr2] at hx
      simp at hx
      rw [hx]
  · intro hw
    cases hr : r with
    | nil => rfl
    | cons x xs =>
      exfalso
      have hx := List.head?_dropWhile_not (fun c => c == '/') l.reverse
      have hr' : l.reverse.dropWhile (fun c => c == '/') = x :: xs := hr
      rw [hr'] at hx
      simp at hx
      have hw' : r.takeWhile (fun c => c != '/') = [] := hw
      rw [hr] at hw'
      simp [List.takeWhile_cons, hx] at hw'

theorem basename_no_slash (path : Str) : ∀ c ∈ basename path, c ≠ '/' := by
  intro c hc
  have h := (scan_decomposition path).2.2.1
  apply h c
  simpa [basename] using hc

/-- The base name is the last non-empty `/`-separated segment, or empty without one. -/
theorem basename_eq_last_segment (path : Str) :
    basename path = (pathSegments path).getLast?.getD [] := by
  obtain ⟨hl, hs, hw, hr2, hwr⟩ := scan_decomposition path
  have hb : basename path =
      ((path.reverse.dropWhile (fun c => c == '/')).takeWhile (fun c => c != '/')).reverse := rfl
  generalize hW : (path.reverse.dropWhile (fun c => c == '/')).takeWhile (fun c => c != '/') = w
    at hl hw hwr hb
  generalize hR2 : (path.reverse.dropWhile (fun c => c == '/')).dropWhile (fun c => c != '/') = r2
    at hl hr2
  generalize hS : path.reverse.takeWhile (fun c => c == '/') = s at hl hs
  have hs' : ∀ c ∈ s.reverse, c = '/' := fun c hc => hs c (by simpa using hc)
  have hw' : ∀ c ∈ w.reverse, c ≠ '/' := fun c hc => hw c (by simpa using hc)
  by_cases hwn : w = []
  · have hr := hwr hwn
    have hr2n : r2 = [] := by rw [← hR2, hr]; rfl
    subst hwn
    rw [hb, hl, hr2n]
    simp [pathSegments_slashes s.reverse hs']
  · have hwn' : w.reverse ≠ [] := by simpa using hwn
    rw [hb, hl]
    rcases hr2 with h | ⟨before, h⟩
    · rw [h]
      simp only [List.reverse_nil, List.nil_append]
      rw [pathSegments_word_slashes w.reverse s.reverse hwn' hw' hs']
      rfl
    · rw [h]
      have : ('/' :: before).reverse ++ w.reverse ++ s.reverse
          = before.reverse ++ '/' :: (w.reverse ++ s.reverse) := by simp
      rw [this, pathSegments_append_slash,
        pathSegments_word_slashes w.reverse s.reverse hwn' hw' hs']
      simp

theorem basename_slashes (s : Str) (hs : ∀ c ∈ s, c = '/') : basename s = [] := by
  have h : s.reverse.dropWhile (fun c => c == '/') = [] := by
    rw [List.dropWhile_eq_nil_iff]
    intro x hx
    simpa using hs x (by simpa using hx)
  simp [basename, h]

theorem basename_decomp (pre w s : Str) (hw : w ≠ []) (hwc : ∀ c ∈ w, c ≠ '/')
    (hs : ∀ c ∈ s, c = '/') (hpre : pre = [] ∨ ∃ d, pre = d ++ ['/']) :
    basename (pre ++ w ++ s) = w := by
  have hrev : (pre ++ w ++ s).reverse = s.reverse ++ (w.reverse ++ pre.reverse) := by simp
  have h1 : (s.reverse ++ (w.reverse ++ pre.reverse)).dropWhile (fun c => c == '/')
      = (w.reverse ++ pre.reverse).dropWhile (fun c => c == '/') := by
    apply List.dropWhile_append_of_pos
    intro a ha
    simpa using hs a (by simpa using ha)
  have h2 : (w.reverse ++ pre.reverse).dropWhile (fun c => c == '/')
      = w.reverse ++ pre.reverse := by
    cases hwr : w.reverse with
    | nil => exact absurd (by simpa using hwr) hw
    | cons x xs =>
      have hx : x ≠ '/' := hwc x (by
        have : x ∈ w.reverse := by rw [hwr]; simp
        simpa using this)
      simp [List.dropWhile_cons, hx]
  have h3 : (w.reverse ++ pre.reverse).takeWhile (fun c => c != '/')
      = w.reverse ++ pre.reverse.takeWhile (fun c => c != '/') := by
    apply List.takeWhile_append_of_pos
    intro a ha
    simpa using hwc a (by simpa using ha)
  have h4 : pre.reverse.takeWhile (fun c => c != '/') = [] := by
    rcases hpre with h | ⟨d, h⟩
    · simp [h]
    · simp [h]
  simp [basename, hrev, h1, h2, h3, h4]

/-- For a path with a directory part other than `.` and a non-empty base name, the
segments are those of the directory part followed by the base name. -/
theorem pathSegments_dirname_basename (p : Str) (hd : dirname p ≠ ['.'])
    (hb : basename p ≠ []) :
    pathSegments p = pathSegments (dirname p) ++ [basename p] := by
  cases p with
  | nil => exact absurd rfl hd
  | cons c rest =>
    obtain ⟨hl, hs, hw, hr2, hwr⟩ := scan_decomposition rest
    have hdir : dirname (c :: rest) =
        (match (rest.reverse.dropWhile (fun c => c == '/')).dropWhile (fun c => c != '/') with
          | [] => if c = '/' then ['/'] else ['.']
          | _ :: before => if c = '/' ∧ before = [] then ['/', '/'] else c :: before.reverse) :=
      rfl
    generalize hW : (rest.reverse.dropWhile (fun c => c == '/')).takeWhile
      (fun c => c != '/') = w at hl hw hwr
    generalize hR2 : (rest.reverse.dropWhile (fun c => c == '/')).dropWhile
      (fun c => c != '/') = r2 at hl hr2 hdir
    generalize hS : rest.reverse.takeWhile (fun c => c == '/') = s at hl hs
    have hs' : ∀ c ∈ s.reverse, c = '/' := fun c hc => hs c (by simpa using hc)
    have hw' : ∀ c ∈ w.reverse, c ≠ '/' := fun c hc => hw c (by simpa using hc)
    by_cases hwn : w = []
    · exfalso
      have hr := hwr hwn
      have hr2n : r2 = [] := by rw [← hR2, hr]; rfl
      subst hwn
      subst hr2n
      simp only [List.reverse_nil, List.nil_append] at hl
      by_cases hc : c = '/'
      · apply hb
        apply basename_slashes
        intro x hx
        rw [hl] at hx
        rcases List.mem_cons.mp hx with h | h
        · rw [h, hc]
        · exact hs' x h
      · apply hd
        rw [hdir]
        simp [hc]
    · have hwn' : w.reverse ≠ [] := by simpa using hwn
      rcases hr2 with h | ⟨before, h⟩
      · subst h
        simp only [List.reverse_nil, List.nil_append] at hl
        by_cases hc : c = '/'
        · subst hc
          have hbase : basename ('/' :: rest) = w.reverse := by
            have := basename_decomp ['/'] w.reverse s.reverse hwn' hw' hs' (Or.inr ⟨[], rfl⟩)
            rw [hl]
            simpa using this
          have hseg : pathSegments ('/' :: rest) = [w.reverse] := by
            have := pathSegments_append_slash [] (w.reverse ++ s.reverse)
            rw [hl]
            simp only [List.nil_append] at this
            rw [this, pathSegments_nil, pathSegments_word_slashes _ _ hwn' hw' hs']
            rfl
          rw [hseg, hbase, hdir]
          have h0 : pathSegments ['/'] = [] := by decide
          simp [h0]
        · exfalso
          apply hd
          rw [hdir]
          simp [hc]
      · subst h
        have hp : c :: rest = (c :: before.reverse) ++ '/' :: (w.reverse ++ s.reverse) := by
          rw [hl]; simp
        have hbase : basename (c :: rest) = w.reverse := by
          have := basename_decomp (c :: before.reverse ++ ['/']) w.reverse s.reverse hwn' hw' hs'
            (Or.inr ⟨c :: before.reverse, rfl⟩)
          rw [hp]
          simpa using this
        have hseg : pathSegments (c :: rest)
            = pathSegments (c :: before.reverse) ++ [w.reverse] := by
          rw [hp, pathSegments_append_slash, pathSegments_word_slashes _ _ hwn' hw' hs']
        rw [hseg, hbase, hdir]
        by_cases hc : c = '/' ∧ before = []
        · obtain ⟨h1, h2⟩ := hc
          subst h1
          subst h2
          have h0 : pathSegments ['/'] = [] := by decide
          have h1 : pathSegments ['/', '/'] = [] := by decide
          simp [h0, h1]
        · simp only [hc, if_false]

/-! ## Objects as ordered property lists: lemmas -/

theorem Files.get_entry_self (k : Str) (n : Node) (rest : Files) :
    (Files.entry k n rest).get k = some n := by
  cases n with
  | mk a f => cases f <;> simp [Files.entry, Files.get]

theorem Files.entries_entry (k : Str) (n : Node) (rest : Files) :
    (Files.entry k n rest).entries = (k, n) :: rest.entries := by
  cases n with
  | mk a f => cases f <;> simp [Files.entry, Files.entries]

theorem Files.values_entry (k : Str) (n : Node) (rest : Files) :
    (Files.entry k n rest).values = if k = protoKey then rest.values else n :: rest.values := by
  cases n with
  | mk a f => cases f <;> simp [Files.entry, Files.values]

/-- The values that `_.any` and `_.each` see are the nodes stored under a key other than
`__proto__`. -/
theorem Files.mem_values_iff (n : Node) (f : Files) :
    n ∈ f.values ↔ ∃ k, k ≠ protoKey ∧ (k, n) ∈ f.entries := by
  induction f with
  | nil => simp [Files.values, Files.entries]
  | plain k' a rest ih =>
    by_cases hk : k' = protoKey
    · simp only [Files.values, hk, if_true, ih, Files.entries, List.mem_cons, Prod.mk.injEq]
      constructor
      · rintro ⟨k, h1, h2⟩
        exact ⟨k, h1, Or.inr h2⟩
      · rintro ⟨k, h1, h2 | h2⟩
        · exact absurd h2.1 h1
        · exact ⟨k, h1, h2⟩
    · simp only [Files.values, hk, if_false, List.mem_cons, ih, Files.entries, Prod.mk.injEq]
      constructor
      · rintro (h | ⟨k, h1, h2⟩)
        · exact ⟨k', hk, Or.inl ⟨rfl, h⟩⟩
        · exact ⟨k, h1, Or.inr h2⟩
      · rintro ⟨k, h1, h2 | h2⟩
        · exact Or.inl h2.2
        · exact Or.inr ⟨k, h1, h2⟩
  | withFiles k' a c rest _ ih =>
    by_cases hk : k' = protoKey
    · simp only [Files.values, hk, if_true, ih, Files.entries, List.mem_cons, Prod.mk.injEq]
      constructor
      · rintro ⟨k, h1, h2⟩
        exact ⟨k, h1, Or.inr h2⟩
      · rintro ⟨k, h1, h2 | h2⟩
        · exact absurd h2.1 h1
        · exact ⟨k, h1, h2⟩
    · simp only [Files.values, hk, if_false, List.mem_cons, ih, Files.entries, Prod.mk.injEq]
      constructor
      · rintro (h | ⟨k, h1, h2⟩)
        · exact ⟨k', hk, Or.inl ⟨rfl, h⟩⟩
        · exact ⟨k, h1, Or.inr h2⟩
      · rintro ⟨k, h1, h2 | h2⟩
        · exact Or.inl h2.2
        · exact Or.inr ⟨k, h1, h2⟩

theorem Files.get_replace_self (k : Str) (n : Node) (f : Files) (h : (f.get k).isSome) :
    (f.replace k n).get k = some n := by
  induction f with
  | nil => simp [Files.get] at h
  | plain k' a rest ih =>
    by_cases hk : k' = k
    · simp [Files.replace, hk, Files.get_entry_self]
    · simp only [Files.get, hk, if_false] at h
      simp [Files.replace, hk, Files.get, ih h]
  | withFiles k' a c rest _ ih =>
    by_cases hk : k' = k
    · simp [Files.replace, hk, Files.get_entry_self]
    · simp only [Files.get, hk, if_false] at h
      simp [Files.replace, hk, Files.get, ih h]

theorem Files.mem_entries_replace (k : Str) (n : Node) (f : Files) (h : (f.get k).isSome) :
    (k, n) ∈ (f.replace k n).entries := by
  induction f with
  | nil => simp [Files.get] at h
  | plain k' a rest ih =>
    by_cases hk : k' = k
    · simp [Files.replace, hk, Files.entries_entry]
    · simp only [Files.get, hk, if_false] at h
      simp [Files.replace, hk, Files.entries, ih h]
  | withFiles k' a c rest _ ih =>
    by_cases hk : k' = k
    · simp [Files.replace, hk, Files.entries_entry]
    · simp only [Files.get, hk, if_false] at h
      simp [Files.replace, hk, Files.entries, ih h]

theorem Files.mem_entries_append (k : Str) (n : Node) (f : Files) :
    (k, n) ∈ (f.append k n).entries := by
  induction f with
  | nil => simp [Files.append, Files.entries_entry]
  | plain k' a rest ih => simp [Files.append, Files.entries, ih]
  | withFiles k' a c rest _ ih => simp [Files.append, Files.entries, ih]

theorem Files.mem_entries_insertIndex (i : Nat) (k : Str) (n : Node) (f : Files) :
    (k, n) ∈ (f.insertIndex i k n).entries := by
  induction f with
  | nil => simp [Files.insertIndex, Files.entries_entry]
  | plain k' a rest ih =>
    unfold Files.insertIndex
    split
    · split
      · simp [Files.entries, ih]
      · simp [Files.entries_entry]
    · simp [Files.entries_entry]
  | withFiles k' a c rest _ ih =>
    unfold Files.insertIndex
    split
    · split
      · simp [Files.entries, ih]
      · simp [Files.entries_entry]
    · simp [Files.entries_entry]

theorem Files.mem_entries_set (k : Str) (n : Node) (f : Files) :
    (k, n) ∈ (f.set k n).entries := by
  unfold Files.set
  split
  · next hk =>
    subst hk
    unfold Files.setPrototype
    split
    · next x hx => exact Files.mem_entries_replace _ n f (by simp [hx])
    · exact Files.mem_entries_append _ n f
  · split
    · next x hx => exact Files.mem_entries_replace k n f (by simp [hx])
    · split
      · exact Files.mem_entries_insertIndex _ k n f
      · exact Files.mem_entries_append k n f

theorem Files.mem_values_set (k : Str) (n : Node) (f : Files) (hk : k ≠ protoKey) :
    n ∈ (f.set k n).values :=
  (Files.mem_values_iff n _).mpr ⟨k, hk, Files.mem_entries_set k n f⟩

theorem Files.set_nil (k : Str) (n : Node) : Files.nil.set k n = Files.entry k n .nil := by
  unfold Files.set Files.setPrototype
  simp only [Files.get]
  split
  · next hk => subst hk; simp [Files.append]
  · split <;> simp [Files.insertIndex, Files.append]

theorem anyNamed_set (k : Str) (n : Node) (f : Files) (hk : k ≠ protoKey) :
    anyNamed (some (f.set k n)) n.attrs.name = true := by
  simp only [anyNamed, List.any_eq_true, decide_eq_true_eq]
  exact ⟨n, Files.mem_values_set k n f hk, rfl⟩

/-- A read that finds the node stored under the key gives that node. -/
theorem Files.read_of_get (k : Str) (n : Node) (f : Files) (h : f.get k = some n) :
    f.read k = .node n := by
  simp [Files.read, h]

theorem Node.field_files (n : Node) (key : Str) (v : Val) (h : n.field key = some v) :
    ∀ g, v.files ≠ .ok (some g) := by
  intro g
  unfold Node.field at h
  split at h
  · simp only [Option.some.injEq] at h; subst h; simp [Val.files]
  · split at h
    · simp only [Option.some.injEq] at h; subst h; simp [Val.files]
    · split at h
      · simp only [Option.some.injEq] at h
        subst h
        cases n.attrs.author <;> simp [Val.files]
      · split at h
        · simp only [Option.some.injEq] at h; subst h; simp [Val.files]
        · split at h
          · simp only [Option.some.injEq] at h; subst h; simp [Val.files]
          · split at h
            · cases hf : n.files with
              | none => simp [hf] at h
              | some c =>
                simp only [hf, Option.map_some', Option.some.injEq] at h
                subst h
                simp only [Val.files]
                split <;> simp
            · cases h

/-- A read that finds no stored node gives a value without a `files` object: the walk
cannot go through it. -/
theorem Files.read_no_files (k : Str) (f : Files) (h : f.get k = none) :
    ∀ g, (f.read k).files ≠ .ok (some g) := by
  intro g
  have hobj : ∀ key, (objectPrototypeMember key).files ≠ .ok (some g) := by
    intro key
    unfold objectPrototypeMember
    split <;> simp [Val.files]
  simp only [Files.read, h, Files.inherited]
  split
  · next proto _ =>
    split
    · next value hv => exact Node.field_files proto k value hv g
    · exact hobj k
  · exact hobj k

theorem Node.field_ne_node (m : Node) (key : Str) (v : Val) (h : m.field key = some v)
    (n : Node) : v ≠ .node n := by
  unfold Node.field at h
  split at h
  · simp only [Option.some.injEq] at h; subst h; simp
  · split at h
    · simp only [Option.some.injEq] at h; subst h; simp
    · split at h
      · simp only [Option.some.injEq] at h
        subst h
        cases m.attrs.author <;> simp
      · split at h
        · simp only [Option.some.injEq] at h; subst h; simp
        · split at h
          · simp only [Option.some.injEq] at h; subst h; simp
          · split at h
            · cases hf : m.files with
              | none => simp [hf] at h
              | some c =>
                simp only [hf, Option.map_some', Option.some.injEq] at h
                subst h
                simp
            · cases h

theorem Files.inherited_ne_node (k : Str) (f : Files) (n : Node) :
    f.inherited k ≠ .node n := by
  have hobj : ∀ key, objectPrototypeMember key ≠ .node n := by
    intro key
    unfold objectPrototypeMember
    split <;> simp
  unfold Files.inherited
  split
  · next proto _ =>
    split
    · next value hv => exact Node.field_ne_node proto k value hv n
    · exact hobj k
  · exact hobj k

theorem Files.read_node (k : Str) (n : Node) (f : Files) (h : f.read k = .node n) :
    f.get k = some n := by
  cases hg : f.get k with
  | some m =>
    rw [Files.read_of_get k m f hg] at h
    simp only [Val.node.injEq] at h
    rw [h]
  | none =>
    simp only [Files.read, hg] at h
    exact absurd h (Files.inherited_ne_node k f n)

/-- The empty key names no attribute of a node and no member of `Object.prototype`: a
read of it that finds no stored node gives `undefined`. -/
theorem Files.read_empty_key (f : Files) (h : f.get [] = none) : f.read [] = .undefined := by
  have hfield : ∀ n : Node, n.field [] = none := by
    intro n
    simp [Node.field]
  have hobj : objectPrototypeMember [] = .undefined := by decide
  simp only [Files.read, h, Files.inherited]
  split
  · next proto _ => simp [hfield proto, hobj]
  · exact hobj

/-! ## The tree engine: lemmas -/

theorem traverse_nil (v : Val) : traverseFileStructure v [] = .ok v := rfl

theorem traverse_cons (v : Val) (seg : Str) (rest : List Str) (files : Files)
    (hv : v.files = .ok (some files)) :
    traverseFileStructure v (seg :: rest) =
      if (files.read (mongoIndex seg)).truthy then
        traverseFileStructure (files.read (mongoIndex seg)) rest
      else .ok .jsFalse := by
  simp [traverseFileStructure, hv]

/-- A step of the walk through a stored node. -/
theorem traverse_cons_node (v : Val) (seg : Str) (rest : List Str) (files : Files)
    (child : Node) (hv : v.files = .ok (some files))
    (hget : files.get (mongoIndex seg) = some child) :
    traverseFileStructure v (seg :: rest) = traverseFileStructure (.node child) rest := by
  rw [traverse_cons v seg rest files hv, Files.read_of_get _ _ _ hget]
  simp [Val.truthy]

/-- The walk from a value without a `files` object can only stop at once. -/
theorem traverse_no_files (w : Val) (hw : ∀ g, w.files ≠ .ok (some g)) :
    ∀ (rest : List Str) (sub : Val), traverseFileStructure w rest = .ok sub → sub = w := by
  intro rest sub h
  cases rest with
  | nil =>
    simp only [traverse_nil, Except.ok.injEq] at h
    exact h.symm
  | cons seg rest =>
    exfalso
    simp only [traverseFileStructure] at h
    split at h
    · cases h
    · cases h
    · next files hfiles => exact hw files hfiles

/-- A step of the walk that finds no stored node ends without a `files` object. -/
theorem traverse_cons_none (v : Val) (seg : Str) (rest : List Str) (files : Files)
    (sub : Val) (hv : v.files = .ok (some files))
    (hget : files.get (mongoIndex seg) = none)
    (h : traverseFileStructure v (seg :: rest) = .ok sub) :
    ∀ g, sub.files ≠ .ok (some g) := by
  rw [traverse_cons v seg rest files hv] at h
  have hno := Files.read_no_files (mongoIndex seg) files hget
  split at h
  · have := traverse_no_files _ hno rest sub h
    rw [this]
    exact hno
  · simp only [Except.ok.injEq] at h
    subst h
    intro g
    simp [Val.files]

/-- A walk that steps on a key without a stored node never ends at a stored node. -/
theorem traverse_cons_none_not_node (v : Val) (seg : Str) (rest : List Str) (files : Files)
    (sub : Val) (hv : v.files = .ok (some files))
    (hget : files.get (mongoIndex seg) = none)
    (h : traverseFileStructure v (seg :: rest) = .ok sub) :
    ∀ n, sub ≠ .node n := by
  rw [traverse_cons v seg rest files hv] at h
  have hno := Files.read_no_files (mongoIndex seg) files hget
  intro n hn
  split at h
  · have := traverse_no_files _ hno rest sub h
    rw [hn] at this
    have hg := Files.read_node _ _ _ this.symm
    rw [hget] at hg
    cases hg
  · simp only [Except.ok.injEq] at h
    subst h
    cases hn

/-- After the assignment, the walk along the same segments reaches the object whose
`files` received the new property. -/
theorem traverse_update (key : Str) (n : Node) :
    ∀ (segs : List Str) (v v' : Val) (files sf : Files),
      v.files = .ok (some files) →
      v'.files = .ok (some (files.update key n segs)) →
      (∃ sub, traverseFileStructure v segs = .ok sub ∧ sub.files = .ok (some sf)) →
      ∃ sub', traverseFileStructure v' segs = .ok sub' ∧
        sub'.files = .ok (some (sf.set key n)) := by
  intro segs
  induction segs with
  | nil =>
    intro v v' files sf hv hv' ⟨sub, hsub, hsf⟩
    simp only [traverse_nil, Except.ok.injEq] at hsub
    subst hsub
    rw [hv] at hsf
    simp only [Except.ok.injEq, Option.some.injEq] at hsf
    subst hsf
    exact ⟨v', rfl, by simpa [Files.update] using hv'⟩
  | cons seg rest ih =>
    intro v v' files sf hv hv' ⟨sub, hsub, hsf⟩
    cases hget : files.get (mongoIndex seg) with
    | none => exact absurd hsf (traverse_cons_none v seg rest files sub hv hget hsub sf)
    | some child =>
      rw [traverse_cons_node v seg rest files child hv hget] at hsub
      cases hcf : child.files with
      | none =>
        exfalso
        have := traverse_no_files (.node child) (by simp [Val.files, hcf]) rest sub hsub
        rw [this] at hsf
        simp [Val.files, hcf] at hsf
      | some cf =>
        simp only [Files.update, hget, hcf] at hv'
        have hstep := ih (.node child)
          (.node ⟨child.attrs, some (Files.update key n cf rest)⟩) cf sf
          (by simp [Val.files, hcf]) (by simp [Val.files]) ⟨sub, hsub, hsf⟩
        obtain ⟨sub', h1, h2⟩ := hstep
        refine ⟨sub', ?_, h2⟩
        rw [traverse_cons_node v' seg rest _ _ hv'
          (Files.get_replace_self _ _ _ (by simp [hget]))]
        exact h1

/-- The existence test walks the segments of the directory part, with `.` standing for
the root, and then looks for the base name among the names. -/
theorem isFile_eq (v : Val) (p : Str) :
    _isFileInFileStructre v p =
      match traverseFileStructure v
          (pathSegments (if dirname p = ['.'] then [] else dirname p)) with
      | .error e => .error e
      | .ok sub =>
        match sub.files with
        | .error e => .error e
        | .ok files => .ok (anyNamed files (basename p)) := by
  unfold _isFileInFileStructre
  by_cases h : dirname p = ['.']
  · simp [h, pathSegments_nil, traverse_nil]
  · simp [h, _getSubFileStructure]

theorem gate_eq (v : Val) (p : Str) :
    _isPathValidAndFileDoesNotExistAtPath v p =
      (_isFileInFileStructre v p).map (fun b => !b) := by
  unfold _isPathValidAndFileDoesNotExistAtPath
  simp only
  split
  · rfl
  · split <;> rfl

theorem isFile_undefined (p : Str) : _isFileInFileStructre .undefined p = .error .typeError := by
  rw [isFile_eq]
  cases pathSegments (if dirname p = ['.'] then [] else dirname p) with
  | nil => simp [traverse_nil, Val.files]
  | cons s ss => simp [traverseFileStructure, Val.files]

/-- What a successful call of `_createNewFileOrFolder` on a fetched document did. -/
theorem create_ok (fileInfo : FileInfo) (fs fs' : FileStructure) (created : Str)
    (h : _createNewFileOrFolder fileInfo none (some fs) created = .ok fs') :
    _isValidFileName fileInfo.filePath = true ∧
    _isFileInFileStructre (.root fs) fileInfo.filePath = .ok false ∧
    ∃ sub sf,
      traverseFileStructure (.root fs)
        (pathSegments (if dirname fileInfo.filePath = ['.'] then []
          else dirname fileInfo.filePath)) = .ok sub ∧
      sub.files = .ok (some sf) ∧
      fs' = { fs with
              files := fs.files.update (mongoIndex (basename fileInfo.filePath))
                (newAddition fileInfo created)
                (pathSegments (if dirname fileInfo.filePath = ['.'] then []
                  else dirname fileInfo.filePath)) } := by
  unfold _createNewFileOrFolder at h
  by_cases hv : _isValidFileName fileInfo.filePath = true
  · simp only [hv, Bool.not_true, Bool.false_eq_true, if_false, gate_eq] at h
    cases hex : _isFileInFileStructre (.root fs) fileInfo.filePath with
    | error e => simp [hex, Except.map] at h
    | ok b =>
      cases b with
      | true => simp [hex, Except.map] at h
      | false =>
        refine ⟨hv, rfl, ?_⟩
        simp only [hex, Except.map, Bool.not_false] at h
        unfold _appendToFileStructure at h
        simp only [hex, _getSubFileStructure] at h
        split at h
        · simp at h
        · next sub hsub =>
          split at h
          · simp at h
          · simp at h
          · next sf hsf =>
            simp only [Except.ok.injEq] at h
            exact ⟨sub, sf, hsub, hsf, h.symm⟩
  · simp only [Bool.not_eq_true] at hv
    simp [hv, gate_eq, isFile_undefined, Except.map] at h

theorem traverse_append (ys : List Str) :
    ∀ (xs : List Str) (v w : Val), traverseFileStructure v xs = .ok w → w ≠ .jsFalse →
      traverseFileStructure v (xs ++ ys) = traverseFileStructure w ys := by
  intro xs
  induction xs with
  | nil =>
    intro v w h _
    simp only [traverse_nil, Except.ok.injEq] at h
    subst h
    rfl
  | cons seg rest ih =>
    intro v w h hw
    simp only [List.cons_append, traverseFileStructure] at h ⊢
    cases hv : v.files with
    | error e => simp [hv] at h
    | ok o =>
      cases o with
      | none => simp [hv] at h
      | some files =>
        simp only [hv] at h ⊢
        split at h
        · next ht =>
          simp only [ht, if_true]
          exact ih _ w h hw
        · simp only [Except.ok.injEq] at h
          exact absurd h.symm hw

/-! ## The listing: lemmas -/

theorem getPaths_eq (files : Files) :
    ∀ filePaths, getPaths files filePaths = filePaths ++ preorderPaths files := by
  induction files with
  | nil => intro acc; simp [getPaths, preorderPaths]
  | plain k a rest ih =>
    intro acc
    by_cases hk : k = protoKey
    · simp [getPaths, preorderPaths, ih, hk]
    · simp [getPaths, preorderPaths, ih, hk]
  | withFiles k a c rest ihc ih =>
    intro acc
    by_cases hk : k = protoKey
    · simp [getPaths, preorderPaths, ih, hk]
    · by_cases ht : a.type = ['f', 'o', 'l', 'd', 'e', 'r']
      · simp [getPaths, preorderPaths, ih, ihc, ht, hk]
      · simp [getPaths, preorderPaths, ih, ht, hk]

theorem preorderPaths_append (k : Str) (n : Node) (files : Files) :
    preorderPaths (files.append k n) = preorderPaths files ++ preorderPaths (Files.entry k n .nil) := by
  induction files with
  | nil => simp [Files.append, preorderPaths]
  | plain k' a rest ih =>
    by_cases hk : k' = protoKey
    · simp [Files.append, preorderPaths, ih, hk]
    · simp [Files.append, preorderPaths, ih, hk]
  | withFiles k' a c rest _ ih =>
    by_cases hk : k' = protoKey
    · simp [Files.append, preorderPaths, ih, hk]
    · simp [Files.append, preorderPaths, ih, hk]

theorem preorderPaths_entry_proto (n : Node) (rest : Files) :
    preorderPaths (Files.entry protoKey n rest) = preorderPaths rest := by
  cases n with
  | mk a f => cases f <;> simp [Files.entry, preorderPaths]

/-- An assignment to `__proto__` leaves the listing as it is. -/
theorem preorderPaths_setPrototype (n : Node) (files : Files) :
    preorderPaths (files.setPrototype n) = preorderPaths files := by
  have hrep : preorderPaths (files.replace protoKey n) = preorderPaths files := by
    induction files with
    | nil => rfl
    | plain k a rest ih =>
      by_cases hk : k = protoKey
      · simp [Files.replace, hk, preorderPaths_entry_proto, preorderPaths]
      · simp [Files.replace, hk, preorderPaths, ih]
    | withFiles k a c rest _ ih =>
      by_cases hk : k = protoKey
      · simp [Files.replace, hk, preorderPaths_entry_proto, preorderPaths]
      · simp [Files.replace, hk, preorderPaths, ih]
  unfold Files.setPrototype
  split
  · exact hrep
  · rw [preorderPaths_append, preorderPaths_entry_proto]
    simp [preorderPaths]

/-! ## The key invariant: lemmas -/

theorem Files.KeysOk_entry (k : Str) (n : Node) (rest : Files)
    (hk : k = mongoIndex n.attrs.name) (hn : ∀ c, n.files = some c → c.KeysOk)
    (hr : rest.KeysOk) : (Files.entry k n rest).KeysOk := by
  cases n with
  | mk a f =>
    cases f with
    | none => exact ⟨hk, hr⟩
    | some c => exact ⟨hk, hn c rfl, hr⟩

theorem Files.KeysOk_get (k : Str) (n : Node) (f : Files) (hf : f.KeysOk)
    (hg : f.get k = some n) :
    k = mongoIndex n.attrs.name ∧ ∀ c, n.files = some c → c.KeysOk := by
  induction f with
  | nil => simp [Files.get] at hg
  | plain k' a rest ih =>
    obtain ⟨h1, h2⟩ := hf
    by_cases hk : k' = k
    · simp only [Files.get, hk, if_true, Option.some.injEq] at hg
      subst hg
      exact ⟨by rw [← hk]; exact h1, by intro c hc; cases hc⟩
    · simp only [Files.get, hk, if_false] at hg
      exact ih h2 hg
  | withFiles k' a c rest _ ih =>
    obtain ⟨h1, h2, h3⟩ := hf
    by_cases hk : k' = k
    · simp only [Files.get, hk, if_true, Option.some.injEq] at hg
      subst hg
      refine ⟨by rw [← hk]; exact h1, ?_⟩
      intro c' hc'
      simp only [Option.some.injEq] at hc'
      subst hc'
      exact h2
    · simp only [Files.get, hk, if_false] at hg
      exact ih h3 hg

theorem Files.KeysOk_replace (k : Str) (n : Node) (f : Files) (hf : f.KeysOk)
    (hk : k = mongoIndex n.attrs.name) (hn : ∀ c, n.files = some c → c.KeysOk) :
    (f.replace k n).KeysOk := by
  induction f with
  | nil => exact hf
  | plain k' a rest ih =>
    obtain ⟨h1, h2⟩ := hf
    unfold Files.replace
    split
    · exact Files.KeysOk_entry k n rest hk hn h2
    · exact ⟨h1, ih h2⟩
  | withFiles k' a c rest _ ih =>
    obtain ⟨h1, h2, h3⟩ := hf
    unfold Files.replace
    split
    · exact Files.KeysOk_entry k n rest hk hn h3
    · exact ⟨h1, h2, ih h3⟩

theorem Files.KeysOk_append (k : Str) (n : Node) (f : Files) (hf : f.KeysOk)
    (hk : k = mongoIndex n.attrs.name) (hn : ∀ c, n.files = some c → c.KeysOk) :
    (f.append k n).KeysOk := by
  induction f with
  | nil => exact Files.KeysOk_entry k n .nil hk hn hf
  | plain k' a rest ih => exact ⟨hf.1, ih hf.2⟩
  | withFiles k' a c rest _ ih => exact ⟨hf.1, hf.2.1, ih hf.2.2⟩

theorem Files.KeysOk_insertIndex (i : Nat) (k : Str) (n : Node) (f : Files) (hf : f.KeysOk)
    (hk : k = mongoIndex n.attrs.name) (hn : ∀ c, n.files = some c → c.KeysOk) :
    (f.insertIndex i k n).KeysOk := by
  induction f with
  | nil => exact Files.KeysOk_entry k n .nil hk hn hf
  | plain k' a rest ih =>
    unfold Files.insertIndex
    split
    · split
      · exact ⟨hf.1, ih hf.2⟩
      · exact Files.KeysOk_entry k n _ hk hn hf
    · exact Files.KeysOk_entry k n _ hk hn hf
  | withFiles k' a c rest _ ih =>
    unfold Files.insertIndex
    split
    · split
      · exact ⟨hf.1, hf.2.1, ih hf.2.2⟩
      · exact Files.KeysOk_entry k n _ hk hn hf
    · exact Files.KeysOk_entry k n _ hk hn hf

theorem Files.KeysOk_set (k : Str) (n : Node) (f : Files) (hf : f.KeysOk)
    (hk : k = mongoIndex n.attrs.name) (hn : ∀ c, n.files = some c → c.KeysOk) :
    (f.set k n).KeysOk := by
  unfold Files.set
  split
  · next hp =>
    subst hp
    unfold Files.setPrototype
    split
    · exact Files.KeysOk_replace _ n f hf hk hn
    · exact Files.KeysOk_append _ n f hf hk hn
  · split
    · exact Files.KeysOk_replace k n f hf hk hn
    · split
      · exact Files.KeysOk_insertIndex _ k n f hf hk hn
      · exact Files.KeysOk_append k n f hf hk hn

theorem Files.KeysOk_update (key : Str) (n : Node) (hk : key = mongoIndex n.attrs.name)
    (hn : ∀ c, n.files = some c → c.KeysOk) :
    ∀ (segs : List Str) (f : Files), f.KeysOk → (f.update key n segs).KeysOk := by
  intro segs
  induction segs with
  | nil => intro f hf; exact Files.KeysOk_set key n f hf hk hn
  | cons seg rest ih =>
    intro f hf
    cases hget : f.get (mongoIndex seg) with
    | none => simpa only [Files.update, hget] using hf
    | some sub =>
      cases hsf : sub.files with
      | none => simpa only [Files.update, hget, hsf] using hf
      | some subFiles =>
        obtain ⟨h1, h2⟩ := Files.KeysOk_get _ _ f hf hget
        simp only [Files.update, hget, hsf]
        refine Files.KeysOk_replace _ ⟨sub.attrs, some (Files.update key n subFiles rest)⟩ f hf
          h1 ?_
        intro c hc
        simp only [Option.some.injEq] at hc
        subst hc
        exact ih subFiles (h2 subFiles hsf)

theorem Reachable.keysOk (fs : FileStructure) (h : Reachable fs) : fs.files.KeysOk := by
  induction h with
  | empty fs hnil => rw [hnil]; trivial
  | insert fs updated fileInfo created _ hstep ih =>
    obtain ⟨-, -, -, -, -, -, hupd⟩ := create_ok fileInfo fs updated created hstep
    rw [hupd]
    show (Files.update _ _ fs.files _).KeysOk
    refine Files.KeysOk_update _ (newAddition fileInfo created) rfl ?_ _ _ ih
    intro c hc
    simp only [newAddition] at hc
    split at hc
    · simp only [Option.some.injEq] at hc
      subst hc
      trivial
    · cases hc

/-- A property of `files` objects that passes from an object to the `files` of the nodes
stored in it holds of every `files` object that the walk reaches. -/
theorem traverse_files_inv (Q : Files → Prop)
    (hQ : ∀ (f : Files) (k : Str) (n : Node) (c : Files),
      Q f → f.get k = some n → n.files = some c → Q c) :
    ∀ (segs : List Str) (v sub : Val), (∀ f, v.files = .ok (some f) → Q f) →
      traverseFileStructure v segs = .ok sub → ∀ f, sub.files = .ok (some f) → Q f := by
  intro segs
  induction segs with
  | nil =>
    intro v sub hv h
    simp only [traverse_nil, Except.ok.injEq] at h
    subst h
    exact hv
  | cons seg rest ih =>
    intro v sub hv h
    cases hvf : v.files with
    | error e => simp [traverseFileStructure, hvf] at h
    | ok o =>
      cases o with
      | none => simp [traverseFileStructure, hvf] at h
      | some files =>
        cases hget : files.get (mongoIndex seg) with
        | none =>
          intro f hf
          exact absurd hf (traverse_cons_none v seg rest files sub hvf hget h f)
        | some child =>
          rw [traverse_cons_node v seg rest files child hvf hget] at h
          apply ih (.node child) sub _ h
          intro f hf
          simp only [Val.files, Except.ok.injEq] at hf
          exact hQ files _ child f (hv files hvf) hget hf

theorem traverse_keysOk :
    ∀ (segs : List Str) (v sub : Val), (∀ f, v.files = .ok (some f) → f.KeysOk) →
      traverseFileStructure v segs = .ok sub → ∀ f, sub.files = .ok (some f) → f.KeysOk :=
  traverse_files_inv Files.KeysOk
    (fun f k n c hf hg hc => (Files.KeysOk_get k n f hf hg).2 c hc)

theorem anyNamed_get (name : Str) (f : Files) (hf : f.KeysOk)
    (h : anyNamed (some f) name = true) : ∃ n, f.get (mongoIndex name) = some n := by
  induction f with
  | nil => simp [anyNamed, Files.values] at h
  | plain k a rest ih =>
    by_cases hk : k = mongoIndex name
    · exact ⟨⟨a, none⟩, by simp [Files.get, hk]⟩
    · simp only [Files.get, hk, if_false]
      apply ih hf.2
      by_cases hp : k = protoKey
      · simpa [anyNamed, Files.values, hp] using h
      · simp only [anyNamed, Files.values, hp, if_false, List.any_cons, Bool.or_eq_true,
          decide_eq_true_eq] at h
        rcases h with h | h
        · exact absurd (by rw [hf.1, h]) hk
        · simpa [anyNamed] using h
  | withFiles k a c rest _ ih =>
    by_cases hk : k = mongoIndex name
    · exact ⟨⟨a, some c⟩, by simp [Files.get, hk]⟩
    · simp only [Files.get, hk, if_false]
      apply ih hf.2.2
      by_cases hp : k = protoKey
      · simpa [anyNamed, Files.values, hp] using h
      · simp only [anyNamed, Files.values, hp, if_false, List.any_cons, Bool.or_eq_true,
          decide_eq_true_eq] at h
        rcases h with h | h
        · exact absurd (by rw [hf.1, h]) hk
        · simpa [anyNamed] using h

/-! ## The errors of the engine: lemmas -/

theorem files_error (v : Val) (e : Err) (h : v.files = .error e) :
    e = .typeError ∨ e = .unmodelled := by
  cases v with
  | undefined => simp only [Val.files, Except.error.injEq] at h; exact Or.inl h.symm
  | jsNull => simp only [Val.files, Except.error.injEq] at h; exact Or.inl h.symm
  | jsFalse => simp [Val.files] at h
  | root fs => simp [Val.files] at h
  | node n => simp [Val.files] at h
  | string s => simp [Val.files] at h
  | builtin name => simp [Val.files] at h
  | filesObject files =>
    simp only [Val.files] at h
    split at h
    · cases h
    · simp only [Except.error.injEq] at h; exact Or.inr h.symm

theorem traverse_error :
    ∀ (segs : List Str) (v : Val) (e : Err),
      traverseFileStructure v segs = .error e → e = .typeError ∨ e = .unmodelled := by
  intro segs
  induction segs with
  | nil => intro v e h; simp [traverse_nil] at h
  | cons seg rest ih =>
    intro v e h
    simp only [traverseFileStructure] at h
    split at h
    · next e' he' =>
      simp only [Except.error.injEq] at h
      subst h
      exact files_error v _ he'
    · simp only [Except.error.injEq] at h
      exact Or.inl h.symm
    · split at h
      · exact ih _ e h
      · simp at h

theorem isFile_error (v : Val) (p : Str) (e : Err)
    (h : _isFileInFileStructre v p = .error e) : e = .typeError ∨ e = .unmodelled := by
  rw [isFile_eq] at h
  split at h
  · next e' he' =>
    simp only [Except.error.injEq] at h
    subst h
    exact traverse_error _ _ _ he'
  · split at h
    · next e' he' =>
      simp only [Except.error.injEq] at h
      subst h
      exact files_error _ _ he'
    · simp at h

theorem append_error (fs : FileStructure) (p : Str) (n : Node) (e : Err)
    (h : _appendToFileStructure fs p n = .error e) : e = .typeError ∨ e = .unmodelled := by
  unfold _appendToFileStructure at h
  simp only at h
  split at h
  · next e' he' =>
    simp only [Except.error.injEq] at h
    subst h
    exact isFile_error _ _ _ he'
  · simp at h
  · split at h
    · next e' he' =>
      simp only [Except.error.injEq] at h
      subst h
      exact traverse_error _ _ _ he'
    · split at h
      · next e' he' =>
        simp only [Except.error.injEq] at h
        subst h
        exact files_error _ _ he'
      · simp only [Except.error.injEq] at h
        exact Or.inl h.symm
      · simp at h

theorem gate_error (v : Val) (p : Str) (e : Err)
    (h : _isPathValidAndFileDoesNotExistAtPath v p = .error e) :
    e = .typeError ∨ e = .unmodelled := by
  rw [gate_eq] at h
  cases hex : _isFileInFileStructre v p with
  | error e' =>
    rw [hex] at h
    simp only [Except.map, Except.error.injEq] at h
    subst h
    exact isFile_error _ _ _ hex
  | ok b =>
    rw [hex] at h
    simp [Except.map] at h

/-! ## Empty segments: lemmas -/

theorem pathSegments_leading_slash (p : Str) : pathSegments ('/' :: p) = pathSegments p := by
  have := pathSegments_append_slash [] p
  simpa [pathSegments_nil] using this

theorem pathSegments_trailing_slash (p : Str) : pathSegments (p ++ ['/']) = pathSegments p := by
  rw [pathSegments_append_slash, pathSegments_nil, List.append_nil]

theorem pathSegments_double_slash (a b : Str) :
    pathSegments (a ++ '/' :: '/' :: b) = pathSegments (a ++ '/' :: b) := by
  rw [pathSegments_append_slash, pathSegments_leading_slash, pathSegments_append_slash]

/-! ## The structure store: lemmas -/

theorem find_insertAsync (store : Store) (projectId other : Nat) (document : FileStructure)
    (h : store.findOneByProjectId other = some document) :
    (store.insertAsync projectId).1.findOneByProjectId other = some document := by
  simp only [Store.findOneByProjectId] at h
  simp [Store.findOneByProjectId, Store.insertAsync, List.find?_append, h]

theorem getFileStructure_store (env : Env) (store : Store) (name : Str) :
    (getFileStructure env store name).1 = store ∨
      ∃ projectId, store.findOneByProjectId projectId = none ∧
        (getFileStructure env store name).1 = (store.insertAsync projectId).1 := by
  unfold getFileStructure
  cases env.getProject name with
  | none => exact Or.inl rfl
  | some projectId =>
    by_cases hc : env.fetchConnects = true
    · cases hfind : store.findOneByProjectId projectId with
      | some d => left; simp [hc, hfind]
      | none => right; exact ⟨projectId, hfind, by simp [hc, hfind]⟩
    · left; simp [hc]

theorem fetchPhase_store (env : Env) (store : Store) (fileInfo : FileInfo) :
    (fetchPhase env store fileInfo).1 = store ∨
      ∃ projectId, store.findOneByProjectId projectId = none ∧
        (fetchPhase env store fileInfo).1 = (store.insertAsync projectId).1 := by
  unfold fetchPhase
  split
  · exact getFileStructure_store env store _
  · exact Or.inl rfl

/-- The fetch leaves the collection as it is for a project that has a document, and
at most inserts the empty document of the project otherwise. -/
theorem fetchPhase_store_of_project (env : Env) (store : Store) (fileInfo : FileInfo)
    (projectId : Nat) (hproject : env.getProject (projectIdOrName fileInfo) = some projectId) :
    (∀ document, store.findOneByProjectId projectId = some document →
      (fetchPhase env store fileInfo).1 = store) ∧
    (store.findOneByProjectId projectId = none →
      (fetchPhase env store fileInfo).1 = store ∨
      (fetchPhase env store fileInfo).1 = (store.insertAsync projectId).1) := by
  unfold fetchPhase getFileStructure
  constructor
  · intro document hdoc
    split
    · simp only [hproject, hdoc]
      split <;> rfl
    · rfl
  · intro hnone
    split
    · simp only [hproject, hnone]
      split
      · exact Or.inr rfl
      · exact Or.inl rfl
    · exact Or.inl rfl

/-! ## The shape invariant: lemmas -/

theorem Files.ShapeOk_entry (k : Str) (n : Node) (rest : Files) (hn : n.ShapeOk)
    (hr : rest.ShapeOk) : (Files.entry k n rest).ShapeOk := by
  cases n with
  | mk a f =>
    cases f with
    | none => exact ⟨hn, hr⟩
    | some c => exact ⟨hn.1, hn.2, hr⟩

theorem Files.ShapeOk_get (k : Str) (n : Node) (f : Files) (hf : f.ShapeOk)
    (hg : f.get k = some n) : n.ShapeOk := by
  induction f with
  | nil => simp [Files.get] at hg
  | plain k' a rest ih =>
    by_cases hk : k' = k
    · simp only [Files.get, hk, if_true, Option.some.injEq] at hg
      subst hg
      exact hf.1
    · simp only [Files.get, hk, if_false] at hg
      exact ih hf.2 hg
  | withFiles k' a c rest _ ih =>
    by_cases hk : k' = k
    · simp only [Files.get, hk, if_true, Option.some.injEq] at hg
      subst hg
      exact ⟨hf.1, hf.2.1⟩
    · simp only [Files.get, hk, if_false] at hg
      exact ih hf.2.2 hg

theorem Files.ShapeOk_replace (k : Str) (n : Node) (f : Files) (hf : f.ShapeOk)
    (hn : n.ShapeOk) : (f.replace k n).ShapeOk := by
  induction f with
  | nil => exact hf
  | plain k' a rest ih =>
    unfold Files.replace
    split
    · exact Files.ShapeOk_entry k n rest hn hf.2
    · exact ⟨hf.1, ih hf.2⟩
  | withFiles k' a c rest _ ih =>
    unfold Files.replace
    split
    · exact Files.ShapeOk_entry k n rest hn hf.2.2
    · exact ⟨hf.1, hf.2.1, ih hf.2.2⟩

theorem Files.ShapeOk_append (k : Str) (n : Node) (f : Files) (hf : f.ShapeOk)
    (hn : n.ShapeOk) : (f.append k n).ShapeOk := by
  induction f with
  | nil => exact Files.ShapeOk_entry k n .nil hn hf
  | plain k' a rest ih => exact ⟨hf.1, ih hf.2⟩
  | withFiles k' a c rest _ ih => exact ⟨hf.1, hf.2.1, ih hf.2.2⟩

theorem Files.ShapeOk_insertIndex (i : Nat) (k : Str) (n : Node) (f : Files)
    (hf : f.ShapeOk) (hn : n.ShapeOk) : (f.insertIndex i k n).ShapeOk := by
  induction f with
  | nil => exact Files.ShapeOk_entry k n .nil hn hf
  | plain k' a rest ih =>
    unfold Files.insertIndex
    split
    · split
      · exact ⟨hf.1, ih hf.2⟩
      · exact Files.ShapeOk_entry k n _ hn hf
    · exact Files.ShapeOk_entry k n _ hn hf
  | withFiles k' a c rest _ ih =>
    unfold Files.insertIndex
    split
    · split
      · exact ⟨hf.1, hf.2.1, ih hf.2.2⟩
      · exact Files.ShapeOk_entry k n _ hn hf
    · exact Files.ShapeOk_entry k n _ hn hf

theorem Files.ShapeOk_set (k : Str) (n : Node) (f : Files) (hf : f.ShapeOk)
    (hn : n.ShapeOk) : (f.set k n).ShapeOk := by
  unfold Files.set
  split
  · unfold Files.setPrototype
    split
    · exact Files.ShapeOk_replace _ n f hf hn
    · exact Files.ShapeOk_append _ n f hf hn
  · split
    · exact Files.ShapeOk_replace k n f hf hn
    · split
      · exact Files.ShapeOk_insertIndex _ k n f hf hn
      · exact Files.ShapeOk_append k n f hf hn

theorem Files.ShapeOk_update (key : Str) (n : Node) (hn : n.ShapeOk) :
    ∀ (segs : List Str) (f : Files), f.ShapeOk → (f.update key n segs).ShapeOk := by
  intro segs
  induction segs with
  | nil => intro f hf; exact Files.ShapeOk_set key n f hf hn
  | cons seg rest ih =>
    intro f hf
    cases hget : f.get (mongoIndex seg) with
    | none => simpa only [Files.update, hget] using hf
    | some sub =>
      cases hsf : sub.files with
      | none => simpa only [Files.update, hget, hsf] using hf
      | some subFiles =>
        have hsub := Files.ShapeOk_get _ _ f hf hget
        simp only [Node.ShapeOk, hsf] at hsub
        simp only [Files.update, hget, hsf]
        refine Files.ShapeOk_replace _ ⟨sub.attrs, some (Files.update key n subFiles rest)⟩ f hf
          ?_
        exact ⟨hsub.1, ih subFiles hsub.2⟩

theorem newAddition_shapeOk (fileInfo : FileInfo) (created : Str) :
    (newAddition fileInfo created).ShapeOk := by
  by_cases ht : fileInfo.type = "folder".toList
  · simp only [Node.ShapeOk, newAddition, ht, if_true]
    exact ⟨trivial, trivial⟩
  · simp only [Node.ShapeOk, newAddition, ht, if_false]
    exact ht

theorem Reachable.shapeOk (fs : FileStructure) (h : Reachable fs) : fs.files.ShapeOk := by
  induction h with
  | empty fs hnil => rw [hnil]; trivial
  | insert fs updated fileInfo created _ hstep ih =>
    obtain ⟨-, -, -, -, -, -, hupd⟩ := create_ok fileInfo fs updated created hstep
    rw [hupd]
    exact Files.ShapeOk_update _ _ (newAddition_shapeOk fileInfo created) _ _ ih

theorem traverse_shapeOk :
    ∀ (segs : List Str) (v : Val) (n : Node),
      (∀ f, v.files = .ok (some f) → f.ShapeOk) →
      traverseFileStructure v (segs) = .ok (.node n) →
      (∀ m, v = .node m → m.ShapeOk) → n.ShapeOk := by
  intro segs
  induction segs with
  | nil =>
    intro v n _ h hv
    simp only [traverse_nil, Except.ok.injEq] at h
    exact hv n h
  | cons seg rest ih =>
    intro v n hf h _
    cases hvf : v.files with
    | error e => simp [traverseFileStructure, hvf] at h
    | ok o =>
      cases o with
      | none => simp [traverseFileStructure, hvf] at h
      | some files =>
        cases hget : files.get (mongoIndex seg) with
        | none => exact absurd rfl (traverse_cons_none_not_node v seg rest files _ hvf hget h n)
        | some child =>
          rw [traverse_cons_node v seg rest files child hvf hget] at h
          have hchild := Files.ShapeOk_get _ _ files (hf files hvf) hget
          apply ih (.node child) n _ h
          · intro m hm
            simp only [Val.node.injEq] at hm
            subst hm
            exact hchild
          · intro f hfc
            simp only [Val.files, Except.ok.injEq] at hfc
            simp only [Node.ShapeOk, hfc] at hchild
            exact hchild.2

/-! ## Distinct keys: lemmas -/

theorem Files.get_entry_ne (k k' : Str) (n : Node) (rest : Files) (h : k ≠ k') :
    (Files.entry k n rest).get k' = rest.get k' := by
  cases n with
  | mk a f => cases f <;> simp [Files.entry, Files.get, h]

theorem Files.get_replace_none (k k' : Str) (n : Node) (f : Files) (h : f.get k' = none) :
    (f.replace k n).get k' = none := by
  induction f with
  | nil => rfl
  | plain k0 a rest ih =>
    have h0 : k0 ≠ k' := by intro e; simp [Files.get, e] at h
    have hr : rest.get k' = none := by simpa [Files.get, h0] using h
    unfold Files.replace
    split
    · next hk => rw [Files.get_entry_ne _ _ _ _ (hk ▸ h0)]; exact hr
    · simp [Files.get, h0, ih hr]
  | withFiles k0 a c rest _ ih =>
    have h0 : k0 ≠ k' := by intro e; simp [Files.get, e] at h
    have hr : rest.get k' = none := by simpa [Files.get, h0] using h
    unfold Files.replace
    split
    · next hk => rw [Files.get_entry_ne _ _ _ _ (hk ▸ h0)]; exact hr
    · simp [Files.get, h0, ih hr]

theorem Files.get_append_none (k k' : Str) (n : Node) (f : Files) (h : f.get k' = none)
    (hk : k ≠ k') : (f.append k n).get k' = none := by
  induction f with
  | nil => simp [Files.append, Files.get_entry_ne _ _ _ _ hk, Files.get]
  | plain k0 a rest ih =>
    have h0 : k0 ≠ k' := by intro e; simp [Files.get, e] at h
    have hr : rest.get k' = none := by simpa [Files.get, h0] using h
    simp [Files.append, Files.get, h0, ih hr]
  | withFiles k0 a c rest _ ih =>
    have h0 : k0 ≠ k' := by intro e; simp [Files.get, e] at h
    have hr : rest.get k' = none := by simpa [Files.get, h0] using h
    simp [Files.append, Files.get, h0, ih hr]

theorem Files.get_insertIndex_none (i : Nat) (k k' : Str) (n : Node) (f : Files)
    (h : f.get k' = none) (hk : k ≠ k') : (f.insertIndex i k n).get k' = none := by
  induction f with
  | nil => simp [Files.insertIndex, Files.get_entry_ne _ _ _ _ hk, Files.get]
  | plain k0 a rest ih =>
    have h0 : k0 ≠ k' := by intro e; simp [Files.get, e] at h
    have hr : rest.get k' = none := by simpa [Files.get, h0] using h
    unfold Files.insertIndex
    split
    · split
      · simp [Files.get, h0, ih hr]
      · rw [Files.get_entry_ne _ _ _ _ hk]; exact h
    · rw [Files.get_entry_ne _ _ _ _ hk]; exact h
  | withFiles k0 a c rest _ ih =>
    have h0 : k0 ≠ k' := by intro e; simp [Files.get, e] at h
    have hr : rest.get k' = none := by simpa [Files.get, h0] using h
    unfold Files.insertIndex
    split
    · split
      · simp [Files.get, h0, ih hr]
      · rw [Files.get_entry_ne _ _ _ _ hk]; exact h
    · rw [Files.get_entry_ne _ _ _ _ hk]; exact h

theorem Files.DistinctKeys_entry (k : Str) (n : Node) (rest : Files)
    (hk : rest.get k = none) (hn : ∀ c, n.files = some c → c.DistinctKeys)
    (hr : rest.DistinctKeys) : (Files.entry k n rest).DistinctKeys := by
  cases n with
  | mk a f =>
    cases f with
    | none => exact ⟨hk, hr⟩
    | some c => exact ⟨hk, hn c rfl, hr⟩

theorem Files.DistinctKeys_get (k : Str) (n : Node) (f : Files) (hf : f.DistinctKeys)
    (hg : f.get k = some n) : ∀ c, n.files = some c → c.DistinctKeys := by
  induction f with
  | nil => simp [Files.get] at hg
  | plain k' a rest ih =>
    by_cases hk : k' = k
    · simp only [Files.get, hk, if_true, Option.some.injEq] at hg
      subst hg
      intro c hc
      cases hc
    · simp only [Files.get, hk, if_false] at hg
      exact ih hf.2 hg
  | withFiles k' a c rest _ ih =>
    by_cases hk : k' = k
    · simp only [Files.get, hk, if_true, Option.some.injEq] at hg
      subst hg
      intro c' hc'
      simp only [Option.some.injEq] at hc'
      subst hc'
      exact hf.2.1
    · simp only [Files.get, hk, if_false] at hg
      exact ih hf.2.2 hg

theorem Files.DistinctKeys_replace (k : Str) (n : Node) (f : Files) (hf : f.DistinctKeys)
    (hn : ∀ c, n.files = some c → c.DistinctKeys) : (f.replace k n).DistinctKeys := by
  induction f with
  | nil => exact hf
  | plain k' a rest ih =>
    unfold Files.replace
    split
    · next hk => exact Files.DistinctKeys_entry k n rest (hk ▸ hf.1) hn hf.2
    · exact ⟨Files.get_replace_none _ _ _ _ hf.1, ih hf.2⟩
  | withFiles k' a c rest _ ih =>
    unfold Files.replace
    split
    · next hk => exact Files.DistinctKeys_entry k n rest (hk ▸ hf.1) hn hf.2.2
    · exact ⟨Files.get_replace_none _ _ _ _ hf.1, hf.2.1, ih hf.2.2⟩

theorem Files.DistinctKeys_append (k : Str) (n : Node) (f : Files) (hf : f.DistinctKeys)
    (hk : f.get k = none) (hn : ∀ c, n.files = some c → c.DistinctKeys) :
    (f.append k n).DistinctKeys := by
  induction f with
  | nil => exact Files.DistinctKeys_entry k n .nil rfl hn hf
  | plain k0 a rest ih =>
    have h0 : k0 ≠ k := by intro e; simp [Files.get, e] at hk
    have hr : rest.get k = none := by simpa [Files.get, h0] using hk
    exact ⟨Files.get_append_none _ _ _ _ hf.1 (Ne.symm h0), ih hf.2 hr⟩
  | withFiles k0 a c rest _ ih =>
    have h0 : k0 ≠ k := by intro e; simp [Files.get, e] at hk
    have hr : rest.get k = none := by simpa [Files.get, h0] using hk
    exact ⟨Files.get_append_none _ _ _ _ hf.1 (Ne.symm h0), hf.2.1, ih hf.2.2 hr⟩

theorem Files.DistinctKeys_insertIndex (i : Nat) (k : Str) (n : Node) (f : Files)
    (hf : f.DistinctKeys) (hk : f.get k = none)
    (hn : ∀ c, n.files = some c → c.DistinctKeys) : (f.insertIndex i k n).DistinctKeys := by
  induction f with
  | nil => exact Files.DistinctKeys_entry k n .nil rfl hn hf
  | plain k0 a rest ih =>
    have h0 : k0 ≠ k := by intro e; simp [Files.get, e] at hk
    have hr : rest.get k = none := by simpa [Files.get, h0] using hk
    unfold Files.insertIndex
    split
    · split
      · exact ⟨Files.get_insertIndex_none _ _ _ _ _ hf.1 (Ne.symm h0), ih hf.2 hr⟩
      · exact Files.DistinctKeys_entry k n _ hk hn hf
    · exact Files.DistinctKeys_entry k n _ hk hn hf
  | withFiles k0 a c rest _ ih =>
    have h0 : k0 ≠ k := by intro e; simp [Files.get, e] at hk
    have hr : rest.get k = none := by simpa [Files.get, h0] using hk
    unfold Files.insertIndex
    split
    · split
      · exact ⟨Files.get_insertIndex_none _ _ _ _ _ hf.1 (Ne.symm h0), hf.2.1, ih hf.2.2 hr⟩
      · exact Files.DistinctKeys_entry k n _ hk hn hf
    · exact Files.DistinctKeys_entry k n _ hk hn hf

theorem Files.DistinctKeys_set (k : Str) (n : Node) (f : Files) (hf : f.DistinctKeys)
    (hn : ∀ c, n.files = some c → c.DistinctKeys) : (f.set k n).DistinctKeys := by
  unfold Files.set
  split
  · unfold Files.setPrototype
    split
    · exact Files.DistinctKeys_replace _ n f hf hn
    · next hnone => exact Files.DistinctKeys_append _ n f hf hnone hn
  · split
    · exact Files.DistinctKeys_replace k n f hf hn
    · next hnone =>
      split
      · exact Files.DistinctKeys_insertIndex _ k n f hf hnone hn
      · exact Files.DistinctKeys_append k n f hf hnone hn

theorem Files.DistinctKeys_update (key : Str) (n : Node)
    (hn : ∀ c, n.files = some c → c.DistinctKeys) :
    ∀ (segs : List Str) (f : Files), f.DistinctKeys → (f.update key n segs).DistinctKeys := by
  intro segs
  induction segs with
  | nil => intro f hf; exact Files.DistinctKeys_set key n f hf hn
  | cons seg rest ih =>
    intro f hf
    cases hget : f.get (mongoIndex seg) with
    | none => simpa only [Files.update, hget] using hf
    | some sub =>
      cases hsf : sub.files with
      | none => simpa only [Files.update, hget, hsf] using hf
      | some subFiles =>
        have hsub := Files.DistinctKeys_get _ _ f hf hget subFiles hsf
        simp only [Files.update, hget, hsf]
        refine Files.DistinctKeys_replace _
          ⟨sub.attrs, some (Files.update key n subFiles rest)⟩ f hf ?_
        intro c hc
        simp only [Option.some.injEq] at hc
        subst hc
        exact ih subFiles hsub

theorem Reachable.distinctKeys (fs : FileStructure) (h : Reachable fs) :
    fs.files.DistinctKeys := by
  induction h with
  | empty fs hnil => rw [hnil]; trivial
  | insert fs updated fileInfo created _ hstep ih =>
    obtain ⟨-, -, -, -, -, -, hupd⟩ := create_ok fileInfo fs updated created hstep
    rw [hupd]
    refine Files.DistinctKeys_update _ (newAddition fileInfo created) ?_ _ _ ih
    intro c hc
    simp only [newAddition] at hc
    split at hc
    · simp only [Option.some.injEq] at hc
      subst hc
      trivial
    · cases hc

theorem traverse_distinctKeys :
    ∀ (segs : List Str) (v sub : Val), (∀ f, v.files = .ok (some f) → f.DistinctKeys) →
      traverseFileStructure v segs = .ok sub →
      ∀ f, sub.files = .ok (some f) → f.DistinctKeys :=
  traverse_files_inv Files.DistinctKeys
    (fun f k n c hf hg hc => Files.DistinctKeys_get k n f hf hg c hc)

/-- With distinct keys, every property is found under its key. -/
theorem Files.get_of_mem_entries (f : Files) (hd : f.DistinctKeys) (k : Str) (n : Node)
    (h : (k, n) ∈ f.entries) : f.get k = some n := by
  induction f with
  | nil => simp [Files.entries] at h
  | plain k0 a rest ih =>
    simp only [Files.entries, List.mem_cons, Prod.mk.injEq] at h
    rcases h with ⟨h1, h2⟩ | h
    · subst h1; subst h2
      simp [Files.get]
    · have hr := ih hd.2 h
      have h0 : k0 ≠ k := by
        intro e
        rw [e] at hd
        rw [hd.1] at hr
        cases hr
      simp [Files.get, h0, hr]
  | withFiles k0 a c rest _ ih =>
    simp only [Files.entries, List.mem_cons, Prod.mk.injEq] at h
    rcases h with ⟨h1, h2⟩ | h
    · subst h1; subst h2
      simp [Files.get]
    · have hr := ih hd.2.2 h
      have h0 : k0 ≠ k := by
        intro e
        rw [e] at hd
        rw [hd.1] at hr
        cases hr
      simp [Files.get, h0, hr]

/-! ## The path invariant: lemmas -/

theorem Files.PathsOk_entry (k : Str) (n : Node) (rest : Files) (anc : List Str)
    (h1 : n.attrs.name = basename n.attrs.path)
    (h2 : anc.map mongoIndex = (parentSegments n.attrs.path).map mongoIndex)
    (h3 : ∀ c, n.files = some c → c.PathsOk (anc ++ [n.attrs.name]))
    (hr : rest.PathsOk anc) : (Files.entry k n rest).PathsOk anc := by
  cases n with
  | mk a f =>
    cases f with
    | none => exact ⟨h1, h2, hr⟩
    | some c => exact ⟨h1, h2, h3 c rfl, hr⟩

theorem Files.PathsOk_get (k : Str) (n : Node) (f : Files) (anc : List Str)
    (hf : f.PathsOk anc) (hg : f.get k = some n) :
    n.attrs.name = basename n.attrs.path ∧
    anc.map mongoIndex = (parentSegments n.attrs.path).map mongoIndex ∧
    ∀ c, n.files = some c → c.PathsOk (anc ++ [n.attrs.name]) := by
  induction f with
  | nil => simp [Files.get] at hg
  | plain k' a rest ih =>
    by_cases hk : k' = k
    · simp only [Files.get, hk, if_true, Option.some.injEq] at hg
      subst hg
      exact ⟨hf.1, hf.2.1, by intro c hc; cases hc⟩
    · simp only [Files.get, hk, if_false] at hg
      exact ih hf.2.2 hg
  | withFiles k' a c rest _ ih =>
    by_cases hk : k' = k
    · simp only [Files.get, hk, if_true, Option.some.injEq] at hg
      subst hg
      refine ⟨hf.1, hf.2.1, ?_⟩
      intro c' hc'
      simp only [Option.some.injEq] at hc'
      subst hc'
      exact hf.2.2.1
    · simp only [Files.get, hk, if_false] at hg
      exact ih hf.2.2.2 hg

theorem Files.PathsOk_replace (k : Str) (n : Node) (f : Files) (anc : List Str)
    (hf : f.PathsOk anc)
    (h1 : n.attrs.name = basename n.attrs.path)
    (h2 : anc.map mongoIndex = (parentSegments n.attrs.path).map mongoIndex)
    (h3 : ∀ c, n.files = some c → c.PathsOk (anc ++ [n.attrs.name])) :
    (f.replace k n).PathsOk anc := by
  induction f with
  | nil => exact hf
  | plain k' a rest ih =>
    unfold Files.replace
    split
    · exact Files.PathsOk_entry k n rest anc h1 h2 h3 hf.2.2
    · exact ⟨hf.1, hf.2.1, ih hf.2.2⟩
  | withFiles k' a c rest _ ih =>
    unfold Files.replace
    split
    · exact Files.PathsOk_entry k n rest anc h1 h2 h3 hf.2.2.2
    · exact ⟨hf.1, hf.2.1, hf.2.2.1, ih hf.2.2.2⟩

theorem Files.PathsOk_append (k : Str) (n : Node) (f : Files) (anc : List Str)
    (hf : f.PathsOk anc)
    (h1 : n.attrs.name = basename n.attrs.path)
    (h2 : anc.map mongoIndex = (parentSegments n.attrs.path).map mongoIndex)
    (h3 : ∀ c, n.files = some c → c.PathsOk (anc ++ [n.attrs.name])) :
    (f.append k n).PathsOk anc := by
  induction f with
  | nil => exact Files.PathsOk_entry k n .nil anc h1 h2 h3 hf
  | plain k' a rest ih => exact ⟨hf.1, hf.2.1, ih hf.2.2⟩
  | withFiles k' a c rest _ ih => exact ⟨hf.1, hf.2.1, hf.2.2.1, ih hf.2.2.2⟩

theorem Files.PathsOk_insertIndex (i : Nat) (k : Str) (n : Node) (f : Files)
    (anc : List Str) (hf : f.PathsOk anc)
    (h1 : n.attrs.name = basename n.attrs.path)
    (h2 : anc.map mongoIndex = (parentSegments n.attrs.path).map mongoIndex)
    (h3 : ∀ c, n.files = some c → c.PathsOk (anc ++ [n.attrs.name])) :
    (f.insertIndex i k n).PathsOk anc := by
  induction f with
  | nil => exact Files.PathsOk_entry k n .nil anc h1 h2 h3 hf
  | plain k' a rest ih =>
    unfold Files.insertIndex
    split
    · split
      · exact ⟨hf.1, hf.2.1, ih hf.2.2⟩
      · exact Files.PathsOk_entry k n _ anc h1 h2 h3 hf
    · exact Files.PathsOk_entry k n _ anc h1 h2 h3 hf
  | withFiles k' a c rest _ ih =>
    unfold Files.insertIndex
    split
    · split
      · exact ⟨hf.1, hf.2.1, hf.2.2.1, ih hf.2.2.2⟩
      · exact Files.PathsOk_entry k n _ anc h1 h2 h3 hf
    · exact Files.PathsOk_entry k n _ anc h1 h2 h3 hf

theorem Files.PathsOk_set (k : Str) (n : Node) (f : Files) (anc : List Str)
    (hf : f.PathsOk anc)
    (h1 : n.attrs.name = basename n.attrs.path)
    (h2 : anc.map mongoIndex = (parentSegments n.attrs.path).map mongoIndex)
    (h3 : ∀ c, n.files = some c → c.PathsOk (anc ++ [n.attrs.name])) :
    (f.set k n).PathsOk anc := by
  unfold Files.set
  split
  · unfold Files.setPrototype
    split
    · exact Files.PathsOk_replace _ n f anc hf h1 h2 h3
    · exact Files.PathsOk_append _ n f anc hf h1 h2 h3
  · split
    · exact Files.PathsOk_replace k n f anc hf h1 h2 h3
    · split
      · exact Files.PathsOk_insertIndex _ k n f anc hf h1 h2 h3
      · exact Files.PathsOk_append k n f anc hf h1 h2 h3

theorem Files.PathsOk_update (key : Str) (n : Node)
    (h1 : n.attrs.name = basename n.attrs.path)
    (h3 : ∀ (anc : List Str) (c : Files), n.files = some c → c.PathsOk anc) :
    ∀ (segs : List Str) (anc : List Str) (f : Files), f.PathsOk anc → f.KeysOk →
      anc.map mongoIndex ++ segs.map mongoIndex
        = (parentSegments n.attrs.path).map mongoIndex →
      (f.update key n segs).PathsOk anc := by
  intro segs
  induction segs with
  | nil =>
    intro anc f hf _ htarget
    simp only [List.map_nil, List.append_nil] at htarget
    exact Files.PathsOk_set key n f anc hf h1 htarget (h3 _)
  | cons seg rest ih =>
    intro anc f hf hk htarget
    cases hget : f.get (mongoIndex seg) with
    | none => simpa only [Files.update, hget] using hf
    | some sub =>
      cases hsf : sub.files with
      | none => simpa only [Files.update, hget, hsf] using hf
      | some subFiles =>
        obtain ⟨s1, s2, s3⟩ := Files.PathsOk_get _ _ f anc hf hget
        obtain ⟨k1, k2⟩ := Files.KeysOk_get _ _ f hk hget
        simp only [Files.update, hget, hsf]
        refine Files.PathsOk_replace _
          ⟨sub.attrs, some (Files.update key n subFiles rest)⟩ f anc hf s1 s2 ?_
        intro c hc
        simp only [Option.some.injEq] at hc
        subst hc
        apply ih (anc ++ [sub.attrs.name]) subFiles (s3 subFiles hsf) (k2 subFiles hsf)
        rw [← htarget]
        simp [k1]

theorem Reachable.pathsOk (fs : FileStructure) (h : Reachable fs) : fs.files.PathsOk [] := by
  induction h with
  | empty fs hnil => rw [hnil]; trivial
  | insert fs updated fileInfo created hprev hstep ih =>
    obtain ⟨-, -, -, -, -, -, hupd⟩ := create_ok fileInfo fs updated created hstep
    rw [hupd]
    refine Files.PathsOk_update _ (newAddition fileInfo created) rfl ?_ _ [] fs.files ih
      (Reachable.keysOk fs hprev) ?_
    · intro anc c hc
      simp only [newAddition] at hc
      split at hc
      · simp only [Option.some.injEq] at hc
        subst hc
        trivial
      · cases hc
    · simp [parentSegments, newAddition]

/-! ## Array indices: lemmas -/

theorem digit_bounds (c : Char) (h : c.isDigit = true) : 48 ≤ c.toNat ∧ c.toNat ≤ 57 := by
  simp only [Char.isDigit, Bool.and_eq_true, decide_eq_true_eq] at h
  obtain ⟨h1, h2⟩ := h
  constructor
  · exact h1
  · exact h2

theorem char_eq_of_toNat (c d : Char) (h : c.toNat = d.toNat) : c = d := by
  apply Char.ext
  apply UInt32.ext
  exact h

theorem digits_foldl (l : List Char) (a : Nat) :
    l.foldl (fun acc d => 10 * acc + (d.toNat - 48)) a
      = a * 10 ^ l.length + l.foldl (fun acc d => 10 * acc + (d.toNat - 48)) 0 := by
  induction l generalizing a with
  | nil => simp
  | cons c cs ih =>
    simp only [List.foldl_cons, List.length_cons]
    rw [ih (10 * a + _), ih (10 * 0 + _)]
    ring

theorem digits_lt (l : List Char) (h : ∀ c ∈ l, c.isDigit = true) :
    l.foldl (fun acc d => 10 * acc + (d.toNat - 48)) 0 < 10 ^ l.length := by
  induction l with
  | nil => simp
  | cons c cs ih =>
    have hc := digit_bounds c (h c (List.mem_cons_self c cs))
    have hcs := ih (fun d hd => h d (List.mem_cons_of_mem c hd))
    simp only [List.foldl_cons, List.length_cons]
    rw [digits_foldl]
    have : (10 * 0 + (c.toNat - 48)) * 10 ^ cs.length ≤ 9 * 10 ^ cs.length :=
      Nat.mul_le_mul_right _ (by omega)
    rw [pow_succ]
    omega

theorem mul_add_inj (N a a' r r' : Nat) (hr : r < N) (hr' : r' < N)
    (h : a * N + r = a' * N + r') : a = a' ∧ r = r' := by
  have hpos : 0 < N := by omega
  have h1 := (Nat.div_mod_unique hpos).mpr ⟨show r + N * a = a * N + r by ring, hr⟩
  have h2 := (Nat.div_mod_unique hpos).mpr
    ⟨show r' + N * a' = a * N + r by rw [h]; ring, hr'⟩
  exact ⟨h1.1.symm.trans h2.1, h1.2.symm.trans h2.2⟩

/-- Two digit strings of the same length that denote the same number are equal. -/
theorem digits_inj : ∀ (l l' : List Char), l.length = l'.length →
    (∀ c ∈ l, c.isDigit = true) → (∀ c ∈ l', c.isDigit = true) →
    l.foldl (fun acc d => 10 * acc + (d.toNat - 48)) 0
      = l'.foldl (fun acc d => 10 * acc + (d.toNat - 48)) 0 → l = l' := by
  intro l
  induction l with
  | nil =>
    intro l' hlen _ _ _
    cases l' with
    | nil => rfl
    | cons _ _ => cases hlen
  | cons c cs ih =>
    intro l' hlen h h' hv
    cases l' with
    | nil => cases hlen
    | cons c' cs' =>
      have hc := digit_bounds c (h c (List.mem_cons_self c cs))
      have hc' := digit_bounds c' (h' c' (List.mem_cons_self c' cs'))
      have hcs := digits_lt cs (fun d hd => h d (List.mem_cons_of_mem c hd))
      have hcs' := digits_lt cs' (fun d hd => h' d (List.mem_cons_of_mem c' hd))
      have hl : cs.length = cs'.length := by simpa using hlen
      simp only [List.foldl_cons] at hv
      rw [digits_foldl cs, digits_foldl cs', ← hl] at hv
      rw [← hl] at hcs'
      obtain ⟨h1, h2⟩ := mul_add_inj _ _ _ _ _ hcs hcs' hv
      have hcc : c = c' := char_eq_of_toNat c c' (by omega)
      rw [hcc, ih cs' hl (fun d hd => h d (List.mem_cons_of_mem c hd))
        (fun d hd => h' d (List.mem_cons_of_mem c' hd)) h2]

/-- A digit string with a leading digit other than `0` denotes a number that is at least
the power of ten of its length. -/
theorem digits_ge (c : Char) (cs : List Char) (hc : c.isDigit = true) (h0 : c ≠ '0') :
    10 ^ cs.length ≤ (c :: cs).foldl (fun acc d => 10 * acc + (d.toNat - 48)) 0 := by
  have hb := digit_bounds c hc
  have hne : c.toNat ≠ 48 := by
    intro h
    exact h0 (char_eq_of_toNat c '0' h)
  simp only [List.foldl_cons]
  rw [digits_foldl]
  have : 1 * 10 ^ cs.length ≤ (10 * 0 + (c.toNat - 48)) * 10 ^ cs.length :=
    Nat.mul_le_mul_right _ (by omega)
  omega

/-- Canonical numerals (digit strings without a leading `0`, or `0` itself) that denote
the same number are equal. -/
theorem canonical_inj (c c' : Char) (cs cs' : List Char)
    (h : ∀ d ∈ c :: cs, d.isDigit = true) (h' : ∀ d ∈ c' :: cs', d.isDigit = true)
    (hz : c ≠ '0' ∨ cs = []) (hz' : c' ≠ '0' ∨ cs' = [])
    (hv : (c :: cs).foldl (fun acc d => 10 * acc + (d.toNat - 48)) 0
      = (c' :: cs').foldl (fun acc d => 10 * acc + (d.toNat - 48)) 0) :
    c :: cs = c' :: cs' := by
  have key : ∀ (a : Char) (as : List Char) (b : Char) (bs : List Char),
      (∀ d ∈ a :: as, d.isDigit = true) → (∀ d ∈ b :: bs, d.isDigit = true) →
      (a ≠ '0' ∨ as = []) →
      (a :: as).foldl (fun acc d => 10 * acc + (d.toNat - 48)) 0
        = (b :: bs).foldl (fun acc d => 10 * acc + (d.toNat - 48)) 0 →
      as.length ≤ bs.length := by
    intro a as b bs ha hb hza hvab
    rcases hza with hza | hza
    · have hge := digits_ge a as (ha a (List.mem_cons_self a as)) hza
      have hltb := digits_lt (b :: bs) hb
      rw [hvab] at hge
      have hpow : 10 ^ as.length < 10 ^ (b :: bs).length := Nat.lt_of_le_of_lt hge hltb
      have := (Nat.pow_lt_pow_iff_right (by norm_num : 1 < 10)).mp hpow
      simp only [List.length_cons] at this
      omega
    · rw [hza]
      exact Nat.zero_le _
  have hlen : cs.length = cs'.length :=
    Nat.le_antisymm (key c cs c' cs' h h' hz hv) (key c' cs' c cs h' h hz' hv.symm)
  exact digits_inj (c :: cs) (c' :: cs') (by simp [hlen]) h h' hv

/-- Two keys that denote the same array index are the same key. -/
theorem arrayIndex?_inj (k k' : Str) (i : Nat) (h : arrayIndex? k = some i)
    (h' : arrayIndex? k' = some i) : k = k' := by
  cases k with
  | nil => simp [arrayIndex?] at h
  | cons c cs =>
    cases k' with
    | nil => simp [arrayIndex?] at h'
    | cons c' cs' =>
      simp only [arrayIndex?] at h h'
      split at h
      · next hcond =>
        split at h'
        · next hcond' =>
          split at h
          · split at h'
            · simp only [Option.some.injEq] at h h'
              refine canonical_inj c c' cs cs' ?_ ?_ hcond.2 hcond'.2 (h.trans h'.symm)
              · intro d hd
                exact List.all_eq_true.mp hcond.1 d hd
              · intro d hd
                exact List.all_eq_true.mp hcond'.1 d hd
            · cases h'
          · cases h
        · cases h'
      · cases h

/-! ## Enumeration order: lemmas -/

theorem Files.keys_entry (k : Str) (n : Node) (rest : Files) :
    (Files.entry k n rest).keys = k :: rest.keys := by
  cases n with
  | mk a f => cases f <;> rfl

theorem Files.ownKeys_entry (k : Str) (n : Node) (rest : Files) :
    (Files.entry k n rest).ownKeys = if k = protoKey then rest.ownKeys else k :: rest.ownKeys := by
  cases n with
  | mk a f => cases f <;> rfl

/-- The own enumerable keys are the keys of the entries without `__proto__`. -/
theorem Files.ownKeys_eq (f : Files) : f.ownKeys = f.keys.filter (fun k => k ≠ protoKey) := by
  induction f with
  | nil => rfl
  | plain k a rest ih =>
    by_cases hk : k = protoKey <;> simp [Files.ownKeys, Files.keys, hk, ih]
  | withFiles k a c rest _ ih =>
    by_cases hk : k = protoKey <;> simp [Files.ownKeys, Files.keys, hk, ih]

theorem Files.keys_replace (key : Str) (n : Node) (f : Files) :
    (f.replace key n).keys = f.keys := by
  induction f with
  | nil => rfl
  | plain k a rest ih =>
    by_cases hk : k = key
    · simp [Files.replace, hk, Files.keys_entry, Files.keys]
    · simp [Files.replace, hk, Files.keys, ih]
  | withFiles k a c rest _ ih =>
    by_cases hk : k = key
    · simp [Files.replace, hk, Files.keys_entry, Files.keys]
    · simp [Files.replace, hk, Files.keys, ih]

theorem Files.keys_append (key : Str) (n : Node) (f : Files) :
    (f.append key n).keys = f.keys ++ [key] := by
  induction f with
  | nil => simp [Files.append, Files.keys_entry, Files.keys]
  | plain k a rest ih => simp [Files.append, Files.keys, ih]
  | withFiles k a c rest _ ih => simp [Files.append, Files.keys, ih]

theorem Files.mem_keys_insertIndex (i : Nat) (key : Str) (n : Node) (f : Files) (k' : Str)
    (h : k' ∈ (f.insertIndex i key n).keys) : k' = key ∨ k' ∈ f.keys := by
  induction f with
  | nil =>
    simp only [Files.insertIndex, Files.keys_entry, Files.keys, List.mem_singleton] at h
    exact Or.inl h
  | plain k a rest ih =>
    simp only [Files.insertIndex] at h
    split at h
    · split at h
      · simp only [Files.keys, List.mem_cons] at h ⊢
        rcases h with h | h
        · exact Or.inr (Or.inl h)
        · rcases ih h with h | h
          · exact Or.inl h
          · exact Or.inr (Or.inr h)
      · simpa [Files.keys_entry, Files.keys] using h
    · simpa [Files.keys_entry, Files.keys] using h
  | withFiles k a c rest _ ih =>
    simp only [Files.insertIndex] at h
    split at h
    · split at h
      · simp only [Files.keys, List.mem_cons] at h ⊢
        rcases h with h | h
        · exact Or.inr (Or.inl h)
        · rcases ih h with h | h
          · exact Or.inl h
          · exact Or.inr (Or.inr h)
      · simpa [Files.keys_entry, Files.keys] using h
    · simpa [Files.keys_entry, Files.keys] using h

/-- An assignment leaves the other own enumerable keys in the order they had. -/
theorem Files.ownKeys_set (key : Str) (n : Node) (f : Files) :
    (f.set key n).ownKeys.filter (fun k => k ≠ key) = f.ownKeys.filter (fun k => k ≠ key) := by
  have hrep : ∀ (k : Str) (g : Files), (g.replace k n).ownKeys = g.ownKeys := by
    intro k g
    rw [Files.ownKeys_eq, Files.ownKeys_eq, Files.keys_replace]
  have happ : ∀ (k : Str) (g : Files),
      (g.append k n).ownKeys.filter (fun x => x ≠ k) = g.ownKeys.filter (fun x => x ≠ k) := by
    intro k g
    rw [Files.ownKeys_eq, Files.ownKeys_eq, Files.keys_append]
    simp [List.filter_append, List.filter_cons]
  have hins : ∀ (i : Nat) (g : Files),
      (g.insertIndex i key n).ownKeys.filter (fun x => x ≠ key)
        = g.ownKeys.filter (fun x => x ≠ key) := by
    intro i g
    induction g with
    | nil =>
      simp only [Files.insertIndex, Files.ownKeys_entry, Files.ownKeys]
      split <;> simp
    | plain k a rest ih =>
      simp only [Files.insertIndex]
      split
      · split
        · by_cases hk : k = protoKey
          · simp only [Files.ownKeys, hk, if_true]
            exact ih
          · simp only [Files.ownKeys, hk, if_false, List.filter_cons, ih]
        · simp only [Files.ownKeys_entry]
          split <;> simp
      · simp only [Files.ownKeys_entry]
        split <;> simp
    | withFiles k a c rest _ ih =>
      simp only [Files.insertIndex]
      split
      · split
        · by_cases hk : k = protoKey
          · simp only [Files.ownKeys, hk, if_true]
            exact ih
          · simp only [Files.ownKeys, hk, if_false, List.filter_cons, ih]
        · simp only [Files.ownKeys_entry]
          split <;> simp
      · simp only [Files.ownKeys_entry]
        split <;> simp
  unfold Files.set Files.setPrototype
  split
  · next hk =>
    subst hk
    split
    · rw [hrep]
    · exact happ _ f
  · split
    · rw [hrep]
    · split
      · exact hins _ f
      · exact happ _ f

/-- An assignment to an existing own property leaves the enumeration as it is. -/
theorem Files.ownKeys_set_of_get (key : Str) (n m : Node) (f : Files)
    (hget : f.get key = some m) : (f.set key n).ownKeys = f.ownKeys := by
  unfold Files.set Files.setPrototype
  split
  · next hk =>
    subst hk
    simp only [hget]
    rw [Files.ownKeys_eq, Files.ownKeys_eq, Files.keys_replace]
  · simp only [hget]
    rw [Files.ownKeys_eq, Files.ownKeys_eq, Files.keys_replace]

theorem keyBefore_of_index (k k' : Str) (i : Nat) (hk : arrayIndex? k = some i) :
    keyBefore k k' = true ↔ ∀ j, arrayIndex? k' = some j → i < j := by
  unfold keyBefore
  rw [hk]
  cases arrayIndex? k' <;> simp

theorem keyBefore_of_none (k k' : Str) (hk : arrayIndex? k = none) :
    keyBefore k k' = true ↔ arrayIndex? k' = none := by
  unfold keyBefore
  rw [hk]
  cases arrayIndex? k' <;> simp

theorem Files.OrderOk_entry (k : Str) (n : Node) (rest : Files)
    (hk : ∀ k' ∈ rest.keys, keyBefore k k' = true)
    (hn : ∀ c, n.files = some c → c.OrderOk) (hr : rest.OrderOk) :
    (Files.entry k n rest).OrderOk := by
  cases n with
  | mk a f =>
    cases f with
    | none => exact ⟨hk, hr⟩
    | some c => exact ⟨hk, hn c rfl, hr⟩

theorem Files.OrderOk_get (k : Str) (n : Node) (f : Files) (hf : f.OrderOk)
    (hg : f.get k = some n) : ∀ c, n.files = some c → c.OrderOk := by
  induction f with
  | nil => simp [Files.get] at hg
  | plain k' a rest ih =>
    simp only [Files.get] at hg
    split at hg
    · simp only [Option.some.injEq] at hg
      subst hg
      intro c hc
      cases hc
    · exact ih hf.2 hg
  | withFiles k' a c' rest _ ih =>
    simp only [Files.get] at hg
    split at hg
    · simp only [Option.some.injEq] at hg
      subst hg
      intro c hc
      simp only [Option.some.injEq] at hc
      subst hc
      exact hf.2.1
    · exact ih hf.2.2 hg

theorem Files.OrderOk_replace (key : Str) (n : Node) (f : Files) (hf : f.OrderOk)
    (hn : ∀ c, n.files = some c → c.OrderOk) : (f.replace key n).OrderOk := by
  induction f with
  | nil => trivial
  | plain k a rest ih =>
    by_cases hk : k = key
    · simp only [Files.replace, hk, if_true]
      exact Files.OrderOk_entry key n rest (hk ▸ hf.1) hn hf.2
    · simp only [Files.replace, hk, if_false]
      exact ⟨by rw [Files.keys_replace]; exact hf.1, ih hf.2⟩
  | withFiles k a c rest _ ih =>
    by_cases hk : k = key
    · simp only [Files.replace, hk, if_true]
      exact Files.OrderOk_entry key n rest (hk ▸ hf.1) hn hf.2.2
    · simp only [Files.replace, hk, if_false]
      exact ⟨by rw [Files.keys_replace]; exact hf.1, hf.2.1, ih hf.2.2⟩

theorem Files.OrderOk_append (key : Str) (n : Node) (f : Files) (hf : f.OrderOk)
    (hkey : arrayIndex? key = none) (hn : ∀ c, n.files = some c → c.OrderOk) :
    (f.append key n).OrderOk := by
  have hlast : ∀ k, keyBefore k key = true := by
    intro k
    unfold keyBefore
    rw [hkey]
    cases arrayIndex? k <;> rfl
  induction f with
  | nil => exact Files.OrderOk_entry key n .nil (by simp [Files.keys]) hn trivial
  | plain k a rest ih =>
    refine ⟨?_, ih hf.2⟩
    intro k' hk'
    rw [Files.keys_append, List.mem_append, List.mem_singleton] at hk'
    rcases hk' with h | h
    · exact hf.1 k' h
    · rw [h]; exact hlast k
  | withFiles k a c rest _ ih =>
    refine ⟨?_, hf.2.1, ih hf.2.2⟩
    intro k' hk'
    rw [Files.keys_append, List.mem_append, List.mem_singleton] at hk'
    rcases hk' with h | h
    · exact hf.1 k' h
    · rw [h]; exact hlast k

/-- A new key goes in front of the entries that come after their first entry which is
not an array index below it. -/
theorem keyBefore_front (key k : Str) (i : Nat) (keys : List Str)
    (hkey : arrayIndex? key = some i)
    (hk : ∀ j, arrayIndex? k = some j → i < j)
    (hrest : ∀ k' ∈ keys, keyBefore k k' = true) :
    ∀ k' ∈ k :: keys, keyBefore key k' = true := by
  intro k' hk'
  rw [keyBefore_of_index key k' i hkey]
  intro j hj
  rcases List.mem_cons.mp hk' with h | h
  · subst h
    exact hk j hj
  · have hb := hrest k' h
    cases hki : arrayIndex? k with
    | none =>
      rw [keyBefore_of_none k k' hki, hj] at hb
      cases hb
    | some l =>
      rw [keyBefore_of_index k k' l hki] at hb
      exact Nat.lt_trans (hk l hki) (hb j hj)

/-- A key without a property is not among the keys. -/
theorem Files.not_mem_keys_of_get_none (key : Str) (f : Files) (h : f.get key = none) :
    key ∉ f.keys := by
  induction f with
  | nil => simp [Files.keys]
  | plain k a rest ih =>
    simp only [Files.get] at h
    split at h
    · cases h
    · next hk =>
      simp only [Files.keys, List.mem_cons, not_or]
      exact ⟨fun e => hk e.symm, ih h⟩
  | withFiles k a c rest _ ih =>
    simp only [Files.get] at h
    split at h
    · cases h
    · next hk =>
      simp only [Files.keys, List.mem_cons, not_or]
      exact ⟨fun e => hk e.symm, ih h⟩

theorem Files.OrderOk_insertIndex (i : Nat) (key : Str) (n : Node) (f : Files)
    (hf : f.OrderOk) (hkey : arrayIndex? key = some i) (hnew : key ∉ f.keys)
    (hn : ∀ c, n.files = some c → c.OrderOk) : (f.insertIndex i key n).OrderOk := by
  have hfront : ∀ (k : Str) (j : Nat), k ≠ key → arrayIndex? k = some j → ¬ j < i →
      ∀ l, arrayIndex? k = some l → i < l := by
    intro k j hne hj hge l hl
    rw [hj] at hl
    simp only [Option.some.injEq] at hl
    subst hl
    have hij : i ≠ j := by
      intro e
      subst e
      exact hne (arrayIndex?_inj k key i hj hkey)
    omega
  induction f with
  | nil => exact Files.OrderOk_entry key n .nil (by simp [Files.keys]) hn trivial
  | plain k a rest ih =>
    simp only [Files.keys, List.mem_cons, not_or] at hnew
    simp only [Files.insertIndex]
    split
    · next j hj =>
      split
      · next hlt =>
        refine ⟨?_, ih hf.2 hnew.2⟩
        intro k' hk'
        rcases Files.mem_keys_insertIndex i key n rest k' hk' with h | h
        · rw [h, keyBefore_of_index k key j hj]
          intro l hl
          rw [hkey] at hl
          simp only [Option.some.injEq] at hl
          omega
        · exact hf.1 k' h
      · next hge =>
        refine Files.OrderOk_entry key n _ ?_ hn hf
        exact keyBefore_front key k i rest.keys hkey
          (hfront k j (fun e => hnew.1 e.symm) hj hge) hf.1
    · next hnone =>
      refine Files.OrderOk_entry key n _ ?_ hn hf
      exact keyBefore_front key k i rest.keys hkey
        (fun l hl => by rw [hnone] at hl; cases hl) hf.1
  | withFiles k a c rest _ ih =>
    simp only [Files.keys, List.mem_cons, not_or] at hnew
    simp only [Files.insertIndex]
    split
    · next j hj =>
      split
      · next hlt =>
        refine ⟨?_, hf.2.1, ih hf.2.2 hnew.2⟩
        intro k' hk'
        rcases Files.mem_keys_insertIndex i key n rest k' hk' with h | h
        · rw [h, keyBefore_of_index k key j hj]
          intro l hl
          rw [hkey] at hl
          simp only [Option.some.injEq] at hl
          omega
        · exact hf.1 k' h
      · next hge =>
        refine Files.OrderOk_entry key n _ ?_ hn hf
        exact keyBefore_front key k i rest.keys hkey
          (hfront k j (fun e => hnew.1 e.symm) hj hge) hf.1
    · next hnone =>
      refine Files.OrderOk_entry key n _ ?_ hn hf
      exact keyBefore_front key k i rest.keys hkey
        (fun l hl => by rw [hnone] at hl; cases hl) hf.1

theorem Files.OrderOk_set (key : Str) (n : Node) (f : Files) (hf : f.OrderOk)
    (hn : ∀ c, n.files = some c → c.OrderOk) : (f.set key n).OrderOk := by
  have hproto : arrayIndex? protoKey = none := by decide
  unfold Files.set Files.setPrototype
  split
  · split
    · exact Files.OrderOk_replace _ n f hf hn
    · exact Files.OrderOk_append _ n f hf hproto hn
  · split
    · exact Files.OrderOk_replace _ n f hf hn
    · next hget =>
      split
      · next i hi =>
        exact Files.OrderOk_insertIndex i key n f hf hi
          (Files.not_mem_keys_of_get_none key f hget) hn
      · next hnone => exact Files.OrderOk_append key n f hf hnone hn

theorem Files.OrderOk_update (key : Str) (n : Node)
    (hn : ∀ c, n.files = some c → c.OrderOk) :
    ∀ (segs : List Str) (f : Files), f.OrderOk → (f.update key n segs).OrderOk := by
  intro segs
  induction segs with
  | nil => intro f hf; exact Files.OrderOk_set key n f hf hn
  | cons seg rest ih =>
    intro f hf
    cases hget : f.get (mongoIndex seg) with
    | none => simpa only [Files.update, hget] using hf
    | some sub =>
      cases hsf : sub.files with
      | none => simpa only [Files.update, hget, hsf] using hf
      | some subFiles =>
        have h2 := Files.OrderOk_get _ _ f hf hget
        simp only [Files.update, hget, hsf]
        refine Files.OrderOk_replace _ ⟨sub.attrs, some (Files.update key n subFiles rest)⟩ f hf
          ?_
        intro c hc
        simp only [Option.some.injEq] at hc
        subst hc
        exact ih subFiles (h2 subFiles hsf)

theorem Reachable.orderOk (fs : FileStructure) (h : Reachable fs) : fs.files.OrderOk := by
  induction h with
  | empty fs hnil => rw [hnil]; trivial
  | insert fs updated fileInfo created _ hstep ih =>
    obtain ⟨-, -, -, -, -, -, hupd⟩ := create_ok fileInfo fs updated created hstep
    rw [hupd]
    show (Files.update _ _ fs.files _).OrderOk
    refine Files.OrderOk_update _ (newAddition fileInfo created) ?_ _ _ ih
    intro c hc
    simp only [newAddition] at hc
    split at hc
    · simp only [Option.some.injEq] at hc
      subst hc
      trivial
    · cases hc

/-- The own enumerable keys of an object whose entries are in enumeration order are in
enumeration order. -/
theorem Files.OrderOk.ownKeys (f : Files) (hf : f.OrderOk) : enumerationOrdered f.ownKeys := by
  have hkeys : f.keys.Pairwise (fun k k' => keyBefore k k' = true) := by
    induction f with
    | nil => exact List.Pairwise.nil
    | plain k a rest ih => exact List.Pairwise.cons hf.1 (ih hf.2)
    | withFiles k a c rest _ ih => exact List.Pairwise.cons hf.1 (ih hf.2.2)
  rw [Files.ownKeys_eq]
  exact List.Pairwise.filter _ hkeys

theorem traverse_orderOk :
    ∀ (segs : List Str) (v sub : Val), (∀ f, v.files = .ok (some f) → f.OrderOk) →
      traverseFileStructure v segs = .ok sub → ∀ f, sub.files = .ok (some f) → f.OrderOk :=
  traverse_files_inv Files.OrderOk
    (fun f k n c hf hg hc => Files.OrderOk_get k n f hf hg c hc)

/-! ## Claims -/

/-- C1 (counterexample): `a/b` passes `_isValidFileName`, yet inserting it into a
document without nodes fails: the parent `a` does not exist and the call throws. And
`__proto__` passes `_isValidFileName` and its insertion into a document without nodes
succeeds, but the assignment has set the prototype of `files` and created no property:
`_isFileInFileStructre` is false for the path and `getPathsForFileStructure` is empty. -/
theorem C1_counterexample :
    _isValidFileName "a/b".toList = true ∧
    _createNewFileOrFolder (request "a/b" "file") none (some (emptyFileStructure 0 0))
      "t".toList = .error .typeError ∧
    _isValidFileName "__proto__".toList = true ∧
    _createNewFileOrFolder (request "__proto__" "file") none (some (emptyFileStructure 0 0))
      "t".toList = .ok (applyRequest (emptyFileStructure 0 0) "__proto__" "file") ∧
    _isFileInFileStructre (.root (applyRequest (emptyFileStructure 0 0) "__proto__" "file"))
      "__proto__".toList = .ok false ∧
    getPathsForFileStructure (applyRequest (emptyFileStructure 0 0) "__proto__" "file")
      = [] := by
  refine ⟨by decide, by decide, by decide, by decide, by decide, by decide⟩

/-- C1 (amended): for every path that passes `_isValidFileName`, whose directory part
names the root (it is `.`, or it has no non-empty segment) and whose sanitized base name
is not `__proto__`, `_createNewFileOrFolder` on a document without nodes succeeds; in the
result `_isFileInFileStructre` is true for the path and `getPathsForFileStructure`
contains the path exactly once. -/
theorem C1_insert_into_empty (fileInfo : FileInfo) (fs : FileStructure) (created : Str)
    (hempty : fs.files = .nil)
    (hvalid : _isValidFileName fileInfo.filePath = true)
    (hroot : dirname fileInfo.filePath = ['.'] ∨
      pathSegments (dirname fileInfo.filePath) = [])
    (hkey : mongoIndex (basename fileInfo.filePath) ≠ protoKey) :
    ∃ updated, _createNewFileOrFolder fileInfo none (some fs) created = .ok updated ∧
      _isFileInFileStructre (.root updated) fileInfo.filePath = .ok true ∧
      (getPathsForFileStructure updated).count fileInfo.filePath = 1 := by
  have hsegs : pathSegments (if dirname fileInfo.filePath = ['.'] then []
      else dirname fileInfo.filePath) = [] := by
    rcases hroot with h | h
    · simp [h, pathSegments_nil]
    · by_cases h' : dirname fileInfo.filePath = ['.']
      · simp [h', pathSegments_nil]
      · simp [h', h]
  have hex : _isFileInFileStructre (.root fs) fileInfo.filePath = .ok false := by
    rw [isFile_eq, hsegs]
    simp [traverse_nil, Val.files, hempty, anyNamed, Files.values]
  refine ⟨{ fs with
      files := Files.entry (mongoIndex (basename fileInfo.filePath))
        (newAddition fileInfo created) .nil }, ?_, ?_, ?_⟩
  · unfold _createNewFileOrFolder
    simp only [hvalid, Bool.not_true, Bool.false_eq_true, if_false, gate_eq, hex, Except.map,
      Bool.not_false]
    unfold _appendToFileStructure
    simp only [hex, _getSubFileStructure, hsegs, traverse_nil, Val.files, hempty,
      Files.update, Files.set_nil]
  · rw [isFile_eq, hsegs]
    simp [traverse_nil, Val.files, anyNamed, Files.values_entry, Files.values, newAddition,
      hkey]
  · simp only [getPathsForFileStructure, newAddition]
    by_cases ht : fileInfo.type = ['f', 'o', 'l', 'd', 'e', 'r']
    · simp [ht, Files.entry, getPaths, hkey]
    · simp [ht, Files.entry, getPaths, hkey]

/-- C1 (witness): `file.txt` into the fresh document. -/
theorem C1_insert_into_empty_witness :
    (emptyFileStructure 0 0).files = .nil ∧
    _isValidFileName (request "file.txt" "file").filePath = true ∧
    mongoIndex (basename (request "file.txt" "file").filePath) ≠ protoKey ∧
    ∃ updated, _createNewFileOrFolder (request "file.txt" "file") none
        (some (emptyFileStructure 0 0)) "t".toList = .ok updated ∧
      _isFileInFileStructre (.root updated) (request "file.txt" "file").filePath = .ok true ∧
      (getPathsForFileStructure updated).count (request "file.txt" "file").filePath = 1 :=
  ⟨rfl, by decide, by decide,
    C1_insert_into_empty (request "file.txt" "file") (emptyFileStructure 0 0) "t".toList rfl
      (by decide) (Or.inl (by decide)) (by decide)⟩

/-- C2 (counterexample): the file `__proto__` is inserted into a document without nodes,
and the call succeeds. The assignment `files['__proto__'] = newAddition` has set the
prototype of `files` and created no property, so `_isFileInFileStructre` is still false
for the path, and a second call at the same path on the returned document succeeds again
instead of throwing `Path is Invalid or File Already Exists`. -/
theorem C2_counterexample :
    _createNewFileOrFolder (request "__proto__" "file") none (some (emptyFileStructure 0 0))
      "t".toList = .ok (applyRequest (emptyFileStructure 0 0) "__proto__" "file") ∧
    _isFileInFileStructre (.root (applyRequest (emptyFileStructure 0 0) "__proto__" "file"))
      "__proto__".toList = .ok false ∧
    (∃ again, _createNewFileOrFolder (request "__proto__" "file") none
      (some (applyRequest (emptyFileStructure 0 0) "__proto__" "file")) "t".toList
        = .ok again) ∧
    _createNewFileOrFolder (request "__proto__" "file") none
      (some (applyRequest (emptyFileStructure 0 0) "__proto__" "file")) "t".toList
        ≠ .error .pathInvalidOrFileExists := by
  refine ⟨by decide, by decide,
    ⟨applyRequest (applyRequest (emptyFileStructure 0 0) "__proto__" "file") "__proto__" "file",
      by decide⟩, by decide⟩

/-- C2 (amended): after a successful `_createNewFileOrFolder` at a path whose sanitized
base name is not `__proto__`, a second call at the same path on the returned document
fails with the error `Path is Invalid or File Already Exists`, and leaves that document
as it was: the gate `_isPathValidAndFileDoesNotExistAtPath` is false, so the call throws
at line 76, before `_appendToFileStructure`, which holds the only assignment to the
document; and `_appendToFileStructure` itself, for this document and path, returns the
document unchanged whatever node it is handed. -/
theorem C2_second_insert_conflicts (fs updated : FileStructure) (fileInfo again : FileInfo)
    (created later : Str)
    (hfirst : _createNewFileOrFolder fileInfo none (some fs) created = .ok updated)
    (hsame : again.filePath = fileInfo.filePath)
    (hkey : mongoIndex (basename fileInfo.filePath) ≠ protoKey) :
    _createNewFileOrFolder again none (some updated) later = .error .pathInvalidOrFileExists ∧
    Err.pathInvalidOrFileExists.message = "Path is Invalid or File Already Exists" ∧
    _isPathValidAndFileDoesNotExistAtPath (.root updated) again.filePath = .ok false ∧
    (∀ n, _appendToFileStructure updated again.filePath n = .ok updated) ∧
    treeAfter updated (_createNewFileOrFolder again none (some updated) later) = updated := by
  obtain ⟨hvalid, -, sub, sf, hsub, hsf, hupd⟩ := create_ok fileInfo fs updated created hfirst
  have hwalk := traverse_update (mongoIndex (basename fileInfo.filePath))
    (newAddition fileInfo created) _ (.root fs) (.root updated) fs.files sf rfl
    (by rw [hupd]; rfl) ⟨sub, hsub, hsf⟩
  obtain ⟨sub', h1, h2⟩ := hwalk
  have hex : _isFileInFileStructre (.root updated) fileInfo.filePath = .ok true := by
    rw [isFile_eq, h1]
    simp only [h2]
    have := anyNamed_set (mongoIndex (basename fileInfo.filePath))
      (newAddition fileInfo created) sf hkey
    simp only [newAddition] at this
    simp only [newAddition, this]
  have hres : _createNewFileOrFolder again none (some updated) later
      = .error .pathInvalidOrFileExists := by
    unfold _createNewFileOrFolder
    simp [hsame, hvalid, gate_eq, hex, Except.map]
  refine ⟨hres, rfl, ?_, ?_, ?_⟩
  · rw [hsame, gate_eq, hex]
    rfl
  · intro n
    unfold _appendToFileStructure
    simp [hsame, hex]
  · rw [hres]
    rfl

/-- C2 (witness): the folder `docs` inserted twice into the fresh document. -/
theorem C2_second_insert_conflicts_witness :
    _createNewFileOrFolder (request "docs" "folder") none (some (emptyFileStructure 0 0))
      "t".toList = .ok (applyRequest (emptyFileStructure 0 0) "docs" "folder") ∧
    mongoIndex (basename (request "docs" "folder").filePath) ≠ protoKey ∧
    _createNewFileOrFolder (request "docs" "file") none
      (some (applyRequest (emptyFileStructure 0 0) "docs" "folder")) "u".toList
        = .error .pathInvalidOrFileExists ∧
    Err.pathInvalidOrFileExists.message = "Path is Invalid or File Already Exists" ∧
    _isPathValidAndFileDoesNotExistAtPath
      (.root (applyRequest (emptyFileStructure 0 0) "docs" "folder"))
      (request "docs" "file").filePath = .ok false ∧
    (∀ n, _appendToFileStructure (applyRequest (emptyFileStructure 0 0) "docs" "folder")
      (request "docs" "file").filePath n
        = .ok (applyRequest (emptyFileStructure 0 0) "docs" "folder")) ∧
    treeAfter (applyRequest (emptyFileStructure 0 0) "docs" "folder")
      (_createNewFileOrFolder (request "docs" "file") none
        (some (applyRequest (emptyFileStructure 0 0) "docs" "folder")) "u".toList)
        = applyRequest (emptyFileStructure 0 0) "docs" "folder" :=
  ⟨by decide, by decide,
    C2_second_insert_conflicts (emptyFileStructure 0 0)
      (applyRequest (emptyFileStructure 0 0) "docs" "folder") (request "docs" "folder")
      (request "docs" "file") "t".toList "u".toList (by decide) rfl (by decide)⟩

/-- C3 (the code at the failing input): inserting `a/b/c.txt` into a document without
nodes passes the gate `_isPathValidAndFileDoesNotExistAtPath` and then throws a
`TypeError` in `_appendToFileStructure`; the error is not `Path is Invalid or File Already
Exists`. The document is left as it was. -/
theorem C3_missing_parent_throws :
    _isPathValidAndFileDoesNotExistAtPath (.root (emptyFileStructure 0 0)) "a/b/c.txt".toList
      = .ok true ∧
    _createNewFileOrFolder (request "a/b/c.txt" "file") none (some (emptyFileStructure 0 0))
      "t".toList = .error .typeError ∧
    _createNewFileOrFolder (request "a/b/c.txt" "file") none (some (emptyFileStructure 0 0))
      "t".toList ≠ .error .pathInvalidOrFileExists ∧
    applyRequest (emptyFileStructure 0 0) "a/b/c.txt" "file" = emptyFileStructure 0 0 := by
  decide

/-- C4 (the code at the failing input): in a document holding the file `ab`, inserting
`a.b` succeeds and replaces the node `ab`, whose key `ab` is also the sanitized `a.b`:
`ab` is listed before the insertion and no longer after it. -/
theorem C4_insert_overwrites_on_key_collision :
    getPathsForFileStructure (applyRequest (emptyFileStructure 0 0) "ab" "file")
      = ["ab".toList] ∧
    (∃ updated, _createNewFileOrFolder (request "a.b" "file") none
        (some (applyRequest (emptyFileStructure 0 0) "ab" "file")) "t".toList = .ok updated ∧
      getPathsForFileStructure updated = ["a.b".toList] ∧
      _getSubFileStructure (.root updated) "ab".toList
        ≠ _getSubFileStructure (.root (applyRequest (emptyFileStructure 0 0) "ab" "file"))
            "ab".toList) := by
  refine ⟨by decide, applyRequest (applyRequest (emptyFileStructure 0 0) "ab" "file") "a.b"
    "file", by decide, by decide, by decide⟩

/-- C5: `_isValidFileName` returns false exactly when the base name of the path, which is
its last non-empty `/`-separated segment (empty when there is none), contains a white
space character or a `/`; the result depends on the path through its base name only. -/
theorem C5_isValidFileName_iff (p : Str) :
    basename p = (pathSegments p).getLast?.getD [] ∧
    (_isValidFileName p = false ↔
      ∃ c ∈ basename p, isJsWhiteSpace c = true ∨ c = '/') ∧
    (∀ q : Str, basename q = basename p → _isValidFileName q = _isValidFileName p) := by
  refine ⟨basename_eq_last_segment p, ?_, ?_⟩
  · simp only [_isValidFileName, Bool.not_eq_false', Bool.or_eq_true, List.any_eq_true,
      beq_iff_eq]
    constructor
    · rintro (⟨c, hc, h⟩ | ⟨c, hc, h⟩)
      · exact ⟨c, hc, Or.inl h⟩
      · exact ⟨c, hc, Or.inr h⟩
    · rintro ⟨c, hc, h | h⟩
      · exact Or.inl ⟨c, hc, h⟩
      · exact Or.inr ⟨c, hc, h⟩
  · intro q hq
    simp [_isValidFileName, hq]

/-- C6 (counterexample): `_isValidFileName` returns true, not false, on `a/b`: the check
looks at the base name `b` only. -/
theorem C6_counterexample : ¬ (_isValidFileName "a/b".toList = false) := by decide

/-- C6 (amended): `_isValidFileName` returns false on `my file.txt` and true on `a/b`,
`file.txt` and `folder1`. -/
theorem C6_isValidFileName_examples :
    _isValidFileName "my file.txt".toList = false ∧
    _isValidFileName "a/b".toList = true ∧
    _isValidFileName "file.txt".toList = true ∧
    _isValidFileName "folder1".toList = true := by decide

/-- C7 (counterexample): after inserting the file `2` and then the file `1`, the listing
is `1`, `2`: keys that are array indices are enumerated in ascending numeric order, not
in insertion order. -/
theorem C7_counterexample :
    getPathsForFileStructure
      (applyRequest (applyRequest (emptyFileStructure 0 0) "2" "file") "1" "file")
        = ["1".toList, "2".toList] ∧
    getPathsForFileStructure
      (applyRequest (applyRequest (emptyFileStructure 0 0) "2" "file") "1" "file")
        ≠ ["2".toList, "1".toList] := by decide

/-- C7 (amended): `getPathsForFileStructure` is the pre-order depth-first flattening of
the root children, each mapping taken in its enumeration order: a child contributes its
path and, when its type is `folder`, the whole listing of its children before the next
sibling. The enumeration order is the order of creation, except for array-index keys:
(2) a new child whose key is neither an array index nor `__proto__` is listed after its
existing siblings; (3) an assignment `files[key] = n` leaves the other children in the
order they had, and (4) when the key was there already, the enumeration is as before;
(5) an assignment to `__proto__` creates no child and leaves the listing as it is;
(6) in every document built from one without nodes by successful insertions, at every
depth (`Files.OrderOk`), and so in every object reached by `_getSubFileStructure`, the
children with an array-index key are enumerated first, in ascending numeric order,
before all other children. (7) Inserting
the folder `docs` and then the file `docs/readme.txt` into a document without nodes gives
`docs`, `docs/readme.txt`. -/
theorem C7_listPaths_preorder (fs : FileStructure) :
    getPathsForFileStructure fs = preorderPaths fs.files ∧
    (∀ (key : Str) (n : Node), key ≠ protoKey → fs.files.get key = none →
      arrayIndex? key = none →
      getPathsForFileStructure { fs with files := fs.files.set key n }
        = getPathsForFileStructure fs ++ preorderPaths (Files.entry key n .nil)) ∧
    (∀ (files : Files) (key : Str) (n : Node),
      (files.set key n).ownKeys.filter (fun k => k ≠ key)
        = files.ownKeys.filter (fun k => k ≠ key)) ∧
    (∀ (files : Files) (key : Str) (n m : Node), files.get key = some m →
      (files.set key n).ownKeys = files.ownKeys) ∧
    (∀ n : Node, getPathsForFileStructure { fs with files := fs.files.set protoKey n }
      = getPathsForFileStructure fs) ∧
    (Reachable fs → fs.files.OrderOk ∧ ∀ (p : Str) (sub : Val) (files : Files),
      _getSubFileStructure (.root fs) p = .ok sub → sub.files = .ok (some files) →
      enumerationOrdered files.ownKeys) ∧
    getPathsForFileStructure
      (applyRequest (applyRequest (emptyFileStructure 0 0) "docs" "folder")
        "docs/readme.txt" "file") = ["docs".toList, "docs/readme.txt".toList] := by
  refine ⟨by simp [getPathsForFileStructure, getPaths_eq], ?_,
    fun files key n => Files.ownKeys_set key n files,
    fun files key n m hget => Files.ownKeys_set_of_get key n m files hget,
    fun n => by
      simp only [getPathsForFileStructure, getPaths_eq, List.nil_append, Files.set, if_true]
      exact preorderPaths_setPrototype n fs.files,
    ?_, by decide⟩
  · intro key n hproto hget hkey
    simp only [getPathsForFileStructure, getPaths_eq, List.nil_append, Files.set, hget, hkey,
      hproto, if_false]
    exact preorderPaths_append key n fs.files
  · intro hreach
    refine ⟨Reachable.orderOk fs hreach, ?_⟩
    intro p sub files hsub hfiles
    exact Files.OrderOk.ownKeys files
      (traverse_orderOk _ (.root fs) sub
        (fun f hf => by
          simp only [Val.files, Except.ok.injEq, Option.some.injEq] at hf
          rw [← hf]
          exact Reachable.orderOk fs hreach)
        hsub files hfiles)

/-- C7 (witness): the files `b`, `2` and `1` are created in this order in a document
without nodes: the children are enumerated as `1`, `2`, `b`, which is in enumeration
order; and the file `notes.txt` created next is listed last. -/
theorem C7_listPaths_preorder_witness :
    Reachable (applyRequest (applyRequest (applyRequest (emptyFileStructure 0 0)
      "b" "file") "2" "file") "1" "file") ∧
    (applyRequest (applyRequest (applyRequest (emptyFileStructure 0 0)
      "b" "file") "2" "file") "1" "file").files.ownKeys
        = ["1".toList, "2".toList, "b".toList] ∧
    enumerationOrdered (applyRequest (applyRequest (applyRequest (emptyFileStructure 0 0)
      "b" "file") "2" "file") "1" "file").files.ownKeys ∧
    "notestxt".toList ≠ protoKey ∧
    (applyRequest (applyRequest (applyRequest (emptyFileStructure 0 0)
      "b" "file") "2" "file") "1" "file").files.get "notestxt".toList = none ∧
    arrayIndex? "notestxt".toList = none ∧
    getPathsForFileStructure
      { applyRequest (applyRequest (applyRequest (emptyFileStructure 0 0)
          "b" "file") "2" "file") "1" "file" with
        files := (applyRequest (applyRequest (applyRequest (emptyFileStructure 0 0)
          "b" "file") "2" "file") "1" "file").files.set
          "notestxt".toList (newAddition (request "notes.txt" "file") "t".toList) }
      = ["1".toList, "2".toList, "b".toList, "notes.txt".toList] :=
  have hreach : Reachable (applyRequest (applyRequest (applyRequest (emptyFileStructure 0 0)
      "b" "file") "2" "file") "1" "file") :=
    Reachable.insert _ _ (request "1" "file") "t".toList
      (Reachable.insert _ _ (request "2" "file") "t".toList
        (Reachable.insert _ _ (request "b" "file") "t".toList
          (Reachable.empty (emptyFileStructure 0 0) rfl)
          (show _ = Except.ok (applyRequest (emptyFileStructure 0 0) "b" "file") by decide))
        (show _ = Except.ok (applyRequest (applyRequest (emptyFileStructure 0 0)
          "b" "file") "2" "file") by decide))
      (by decide)
  ⟨hreach, by decide,
    ((C7_listPaths_preorder _).2.2.2.2.2.1 hreach).2 [] (.root _) _ rfl rfl,
    by decide, by decide, by decide,
    ((C7_listPaths_preorder _).2.1
      "notestxt".toList (newAddition (request "notes.txt" "file") "t".toList)
      (by decide) (by decide) (by decide)).trans (by decide)⟩

/-- C8 (the code at the failing input): in a document holding the file `a`, resolving
`a/b` throws a `TypeError` (the file node has no `files` to index) instead of returning
`false`; resolving `x/b`, whose first segment has no node, does return `false`. -/
theorem C8_resolve_through_file_throws :
    _getSubFileStructure (.root (applyRequest (emptyFileStructure 0 0) "a" "file"))
      "a/b".toList = .error .typeError ∧
    _getSubFileStructure (.root (applyRequest (emptyFileStructure 0 0) "a" "file"))
      "x/b".toList = .ok .jsFalse := by decide

/-- C9 (counterexample): on a document without nodes, resolving `.` gives `false`, not
the root. -/
theorem C9_counterexample :
    _getSubFileStructure (.root (emptyFileStructure 0 0)) ".".toList
      ≠ .ok (.root (emptyFileStructure 0 0)) := by decide

/-- C9 (amended): resolving the empty path returns the root; resolving `.` looks up the
empty key (the sanitized `.`) among the root's children and returns that child, or
`false` when there is none. -/
theorem C9_resolve_empty_and_dot (fs : FileStructure) :
    _getSubFileStructure (.root fs) [] = .ok (.root fs) ∧
    _getSubFileStructure (.root fs) ['.'] =
      .ok (match fs.files.get [] with
        | some child => .node child
        | none => .jsFalse) := by
  have h1 : pathSegments [] = [] := pathSegments_nil
  have h2 : pathSegments ['.'] = [['.']] := by decide
  have h3 : mongoIndex ['.'] = [] := by decide
  refine ⟨by simp [_getSubFileStructure, h1, traverse_nil], ?_⟩
  simp only [_getSubFileStructure, h2]
  cases hget : fs.files.get [] with
  | some child =>
    rw [traverse_cons_node (.root fs) ['.'] [] fs.files child rfl (by rw [h3]; exact hget)]
    rfl
  | none =>
    rw [traverse_cons (.root fs) ['.'] [] fs.files rfl, h3, Files.read_empty_key _ hget]
    rfl

/-- C10 (counterexample): the file `./a` is inserted into a document without nodes. The
path is present (listed, and found by `_isFileInFileStructre`); its parent, resolved as
the code does (`path.dirname` is `.`, which stands for the root), is the root, and the
key `a` holds the node there; but `_getSubFileStructure` on `./a` walks the segments `.`
and `a` and returns `false`. Likewise, after the file with the empty path is inserted,
the empty path is present and its node is under the empty key of the root, but
`_getSubFileStructure` on the empty path returns the root. -/
theorem C10_counterexample :
    getPathsForFileStructure (applyRequest (emptyFileStructure 0 0) "./a" "file")
      = ["./a".toList] ∧
    _isFileInFileStructre (.root (applyRequest (emptyFileStructure 0 0) "./a" "file"))
      "./a".toList = .ok true ∧
    _getSubFileStructure (.root (applyRequest (emptyFileStructure 0 0) "./a" "file"))
      (if dirname "./a".toList = ['.'] then [] else dirname "./a".toList)
        = .ok (.root (applyRequest (emptyFileStructure 0 0) "./a" "file")) ∧
    (applyRequest (emptyFileStructure 0 0) "./a" "file").files.read
      (mongoIndex (basename "./a".toList))
        = .node (newAddition (request "./a" "file") "t".toList) ∧
    _getSubFileStructure (.root (applyRequest (emptyFileStructure 0 0) "./a" "file"))
      "./a".toList = .ok .jsFalse ∧
    _isFileInFileStructre (.root (applyRequest (emptyFileStructure 0 0) "" "file")) []
      = .ok true ∧
    (applyRequest (emptyFileStructure 0 0) "" "file").files.read (mongoIndex (basename []))
      = .node (newAddition (request "" "file") "t".toList) ∧
    _getSubFileStructure (.root (applyRequest (emptyFileStructure 0 0) "" "file")) []
      = .ok (.root (applyRequest (emptyFileStructure 0 0) "" "file")) := by
  refine ⟨by decide, by decide, by decide, by decide, by decide, by decide, by decide,
    by decide⟩

/-- C10 (amended): in every document built by successful insertions, for every present
path whose base name is not empty and which, when its directory part is `.`, consists of
its base name alone (it is not written as `./name`): resolving the parent as the code
does (the directory part, with `.` standing for the root) gives an object with children,
the property of these children named by the sanitized base name is a node, and that node
is the one that resolving the whole path returns. -/
theorem C10_resolve_round_trip (fs : FileStructure) (p : Str)
    (hreach : Reachable fs)
    (hpresent : _isFileInFileStructre (.root fs) p = .ok true)
    (hbase : basename p ≠ [])
    (hdot : dirname p = ['.'] → pathSegments p = [basename p]) :
    ∃ parent children n,
      _getSubFileStructure (.root fs) (if dirname p = ['.'] then [] else dirname p)
        = .ok parent ∧
      parent.files = .ok (some children) ∧
      children.read (mongoIndex (basename p)) = .node n ∧
      _getSubFileStructure (.root fs) p = .ok (.node n) := by
  have hkeys := Reachable.keysOk fs hreach
  rw [isFile_eq] at hpresent
  cases hsub : traverseFileStructure (.root fs)
      (pathSegments (if dirname p = ['.'] then [] else dirname p)) with
  | error e => simp [hsub] at hpresent
  | ok parent =>
    simp only [hsub] at hpresent
    cases hpf : parent.files with
    | error e => simp [hpf] at hpresent
    | ok o =>
      simp only [hpf, Except.ok.injEq] at hpresent
      cases o with
      | none => simp [anyNamed] at hpresent
      | some children =>
        have hck : children.KeysOk :=
          traverse_keysOk _ (.root fs) parent
            (by intro f hf; simp only [Val.files, Except.ok.injEq, Option.some.injEq] at hf
                rw [← hf]; exact hkeys)
            hsub children hpf
        obtain ⟨n, hn⟩ := anyNamed_get (basename p) children hck hpresent
        refine ⟨parent, children, n, hsub, hpf, Files.read_of_get _ _ _ hn, ?_⟩
        have hne : parent ≠ .jsFalse := by
          intro h
          rw [h] at hpf
          simp [Val.files] at hpf
        have hsegs : pathSegments p
            = pathSegments (if dirname p = ['.'] then [] else dirname p) ++ [basename p] := by
          by_cases hd : dirname p = ['.']
          · simp only [hd, if_true, pathSegments_nil, List.nil_append]
            exact hdot hd
          · simp only [hd, if_false]
            exact pathSegments_dirname_basename p hd hbase
        unfold _getSubFileStructure
        rw [hsegs, traverse_append [basename p] _ (.root fs) parent hsub hne,
          traverse_cons_node parent (basename p) [] children n hpf hn]
        rfl

/-- C10 (witness): the nested path `docs/readme.txt` and the top-level path `docs` in the
document built by inserting the folder `docs` and then the file `docs/readme.txt`. -/
theorem C10_resolve_round_trip_witness :
    Reachable (applyRequest (applyRequest (emptyFileStructure 0 0) "docs" "folder")
      "docs/readme.txt" "file") ∧
    _isFileInFileStructre (.root (applyRequest (applyRequest (emptyFileStructure 0 0) "docs"
      "folder") "docs/readme.txt" "file")) "docs/readme.txt".toList = .ok true ∧
    basename "docs/readme.txt".toList ≠ [] ∧
    dirname "docs/readme.txt".toList ≠ ['.'] ∧
    (∃ parent children n,
      _getSubFileStructure (.root (applyRequest (applyRequest (emptyFileStructure 0 0) "docs"
        "folder") "docs/readme.txt" "file"))
        (if dirname "docs/readme.txt".toList = ['.'] then []
          else dirname "docs/readme.txt".toList) = .ok parent ∧
      parent.files = .ok (some children) ∧
      children.read (mongoIndex (basename "docs/readme.txt".toList)) = .node n ∧
      _getSubFileStructure (.root (applyRequest (applyRequest (emptyFileStructure 0 0) "docs"
        "folder") "docs/readme.txt" "file")) "docs/readme.txt".toList = .ok (.node n)) ∧
    _isFileInFileStructre (.root (applyRequest (applyRequest (emptyFileStructure 0 0) "docs"
      "folder") "docs/readme.txt" "file")) "docs".toList = .ok true ∧
    basename "docs".toList ≠ [] ∧
    pathSegments "docs".toList = [basename "docs".toList] ∧
    (∃ parent children n,
      _getSubFileStructure (.root (applyRequest (applyRequest (emptyFileStructure 0 0) "docs"
        "folder") "docs/readme.txt" "file"))
        (if dirname "docs".toList = ['.'] then [] else dirname "docs".toList) = .ok parent ∧
      parent.files = .ok (some children) ∧
      children.read (mongoIndex (basename "docs".toList)) = .node n ∧
      _getSubFileStructure (.root (applyRequest (applyRequest (emptyFileStructure 0 0) "docs"
        "folder") "docs/readme.txt" "file")) "docs".toList = .ok (.node n)) :=
  have hreach : Reachable (applyRequest (applyRequest (emptyFileStructure 0 0) "docs"
      "folder") "docs/readme.txt" "file") :=
    Reachable.insert (applyRequest (emptyFileStructure 0 0) "docs" "folder") _
      (request "docs/readme.txt" "file") "t".toList
      (Reachable.insert (emptyFileStructure 0 0) _ (request "docs" "folder") "t".toList
        (Reachable.empty _ rfl) (by decide))
      (by decide)
  ⟨hreach, by decide, by decide, by decide,
    C10_resolve_round_trip _ "docs/readme.txt".toList hreach (by decide) (by decide)
      (fun h => absurd h (by decide)),
    by decide, by decide, by decide,
    C10_resolve_round_trip _ "docs".toList hreach (by decide) (by decide)
      (fun _ => by decide)⟩

/-- C11: `mongoIndex` deletes every `.` and keeps the other characters in their order:
the result has no `.`, it is the name with characters left out, and character by
character a `.` is dropped and any other character is kept. -/
theorem C11_mongoIndex_deletes_dots (name : Str) :
    '.' ∉ mongoIndex name ∧
    List.Sublist (mongoIndex name) name ∧
    mongoIndex [] = [] ∧
    (∀ (c : Char) (rest : Str),
      mongoIndex (c :: rest) = if c = '.' then mongoIndex rest else c :: mongoIndex rest) ∧
    mongoIndex "read.me.txt".toList = "readmetxt".toList := by
  refine ⟨?_, ?_, rfl, ?_, by decide⟩
  · simp [mongoIndex]
  · exact List.filter_sublist name
  · intro c rest
    by_cases h : c = '.'
    · simp [mongoIndex, h]
    · simp [mongoIndex, h]

/-- C12 (counterexample): `mongoIndex` maps the distinct names `ab` and `a.b` to the same
key, so it is not injective. -/
theorem C12_counterexample :
    ¬ (∀ a b : Str, mongoIndex a = mongoIndex b → a = b) := by
  intro h
  exact absurd (h "ab".toList "a.b".toList (by decide)) (by decide)

/-- C12 (amended): on names without `.` the key is the name itself, so two such names
with the same key are equal. -/
theorem C12_mongoIndex_injective_without_dots (a b : Str)
    (ha : '.' ∉ a) (hb : '.' ∉ b) (h : mongoIndex a = mongoIndex b) : a = b := by
  have key : ∀ s : Str, '.' ∉ s → mongoIndex s = s := by
    intro s hs
    simp only [mongoIndex, List.filter_eq_self]
    intro c hc
    have : c ≠ '.' := fun e => hs (e ▸ hc)
    simpa using this
  rw [← key a ha, ← key b hb]
  exact h

/-- C12 (witness): two names without `.` and with the same key. -/
theorem C12_mongoIndex_injective_without_dots_witness :
    '.' ∉ "readme".toList ∧ mongoIndex "readme".toList = mongoIndex "readme".toList ∧
      "readme".toList = "readme".toList :=
  ⟨by decide, rfl,
    C12_mongoIndex_injective_without_dots "readme".toList "readme".toList (by decide)
      (by decide) rfl⟩

/-- C13 (the code at the failing input): for `note s.txt`, whose name check fails,
`_createNewFileOrFolder` ends in a `TypeError`, with or without a document passed in: the
`.catch` after the fetch step swallows the error `Invalid File Name` and hands `undefined`
to the next step. No call of `_createNewFileOrFolder` ever ends in `Invalid File Name`. -/
theorem C13_invalid_name_error_is_swallowed :
    _isValidFileName "note s.txt".toList = false ∧
    _createNewFileOrFolder (request "note s.txt" "file") none (some (emptyFileStructure 0 0))
      "t".toList = .error .typeError ∧
    _createNewFileOrFolder (request "note s.txt" "file") (some (emptyFileStructure 0 0)) none
      "t".toList = .error .typeError ∧
    (∀ (fileInfo : FileInfo) (updatefileStructure fetched : Option FileStructure)
        (created : Str),
      _createNewFileOrFolder fileInfo updatefileStructure fetched created
        ≠ .error .invalidFileName) := by
  refine ⟨by decide, by decide, by decide, ?_⟩
  intro fileInfo upd fetched created h
  unfold _createNewFileOrFolder at h
  simp only at h
  split at h
  · next e he =>
    simp only [Except.error.injEq] at h
    subst h
    exact absurd (gate_error _ _ _ he) (by decide)
  · simp at h
  · split at h
    · simp at h
    · exact absurd (append_error _ _ _ _ h) (by decide)

/-- C14 (counterexample): project 7 has no stored document. The request to create the
file `a/b/c.txt` makes the fetch insert the empty document of the project; the engine
step then fails (the parent `a/b` does not exist) and the response is status 400, but the
collection is not as before: it now holds the empty document of project 7. -/
theorem C14_counterexample :
    _createNewFileOrFolder (sampleRequest "a/b/c.txt" "file").fileInfo none
      (fetchPhase sampleEnv emptyStore (sampleRequest "a/b/c.txt" "file").fileInfo).2
      sampleEnv.created = .error .typeError ∧
    (createNewFileOrFolder sampleEnv emptyStore (sampleRequest "a/b/c.txt" "file")).2
      = .badRequest none ∧
    emptyStore.findOneByProjectId 7 = none ∧
    (createNewFileOrFolder sampleEnv emptyStore
      (sampleRequest "a/b/c.txt" "file")).1.findOneByProjectId 7
        = some (emptyFileStructure 0 7) ∧
    (createNewFileOrFolder sampleEnv emptyStore (sampleRequest "a/b/c.txt" "file")).1
      ≠ emptyStore := by
  refine ⟨by decide, by decide, by decide, by decide, by decide⟩

/-- C14 (amended): when the engine step `_createNewFileOrFolder` of
`createNewFileOrFolder` fails, the response is status 400 and `_updateFileStructure` is
not performed: the collection is as it was, or has only gained the empty document that
the fetch inserts for a project without one; the stored document of every project that
had one is the same as before; when the project of the request had a document, the
collection is unchanged, and when it had none, the only possible change is the insertion
of its empty document by the fetch. -/
theorem C14_engine_failure_persists_nothing (env : Env) (store : Store) (req : Request)
    (e : Err)
    (hfail : _createNewFileOrFolder req.fileInfo none
      (fetchPhase env store req.fileInfo).2 env.created = .error e) :
    (∃ message, (createNewFileOrFolder env store req).2 = .badRequest message) ∧
    ((createNewFileOrFolder env store req).1 = store ∨
      ∃ projectId, store.findOneByProjectId projectId = none ∧
        (createNewFileOrFolder env store req).1 = (store.insertAsync projectId).1) ∧
    (∀ projectId document, store.findOneByProjectId projectId = some document →
      (createNewFileOrFolder env store req).1.findOneByProjectId projectId
        = some document) ∧
    (∀ projectId document,
      env.getProject (projectIdOrName req.fileInfo) = some projectId →
      store.findOneByProjectId projectId = some document →
      (createNewFileOrFolder env store req).1 = store) ∧
    (∀ projectId,
      env.getProject (projectIdOrName req.fileInfo) = some projectId →
      store.findOneByProjectId projectId = none →
      (createNewFileOrFolder env store req).1 = store ∨
      (createNewFileOrFolder env store req).1 = (store.insertAsync projectId).1) := by
  have hres : (createNewFileOrFolder env store req).2 = .badRequest none ∧
        (createNewFileOrFolder env store req).1 = (fetchPhase env store req.fileInfo).1
      ∨ (createNewFileOrFolder env store req).2
          = .badRequest (some "Invalid File Type Specified") ∧
        (createNewFileOrFolder env store req).1 = store := by
    unfold createNewFileOrFolder
    split
    · exact Or.inr ⟨rfl, rfl⟩
    · left
      simp only [hfail, and_self]
  have hstore : (createNewFileOrFolder env store req).1 = store ∨
      ∃ projectId, store.findOneByProjectId projectId = none ∧
        (createNewFileOrFolder env store req).1 = (store.insertAsync projectId).1 := by
    rcases hres with ⟨-, h⟩ | ⟨-, h⟩
    · rw [h]
      exact fetchPhase_store env store req.fileInfo
    · exact Or.inl h
  refine ⟨?_, hstore, ?_, ?_, ?_⟩
  · rcases hres with ⟨h, -⟩ | ⟨h, -⟩
    · exact ⟨_, h⟩
    · exact ⟨_, h⟩
  · intro projectId document hdoc
    rcases hstore with h | ⟨other, -, h⟩
    · rw [h]; exact hdoc
    · rw [h]; exact find_insertAsync store other projectId document hdoc
  · intro projectId document hproject hdoc
    rcases hres with ⟨-, h⟩ | ⟨-, h⟩
    · rw [h]
      exact (fetchPhase_store_of_project env store req.fileInfo projectId hproject).1
        document hdoc
    · exact h
  · intro projectId hproject hnone
    rcases hres with ⟨-, h⟩ | ⟨-, h⟩
    · rw [h]
      exact (fetchPhase_store_of_project env store req.fileInfo projectId hproject).2 hnone
    · exact Or.inl h

/-- C14 (witness): inserting the folder `docs` a second time into the stored document of
project 7 fails at the gate; the response is status 400 and the collection is unchanged. -/
theorem C14_engine_failure_persists_nothing_witness :
    _createNewFileOrFolder (sampleRequest "docs" "folder").fileInfo none
      (fetchPhase sampleEnv
        (createNewFileOrFolder sampleEnv freshStore (sampleRequest "docs" "folder")).1
        (sampleRequest "docs" "folder").fileInfo).2 sampleEnv.created
      = .error .pathInvalidOrFileExists ∧
    (∃ message, (createNewFileOrFolder sampleEnv
        (createNewFileOrFolder sampleEnv freshStore (sampleRequest "docs" "folder")).1
        (sampleRequest "docs" "folder")).2 = .badRequest message) ∧
    (createNewFileOrFolder sampleEnv
        (createNewFileOrFolder sampleEnv freshStore (sampleRequest "docs" "folder")).1
        (sampleRequest "docs" "folder")).1
      = (createNewFileOrFolder sampleEnv freshStore (sampleRequest "docs" "folder")).1 :=
  have h := C14_engine_failure_persists_nothing sampleEnv
    (createNewFileOrFolder sampleEnv freshStore (sampleRequest "docs" "folder")).1
    (sampleRequest "docs" "folder") .pathInvalidOrFileExists (by decide)
  ⟨by decide, h.1,
    h.2.2.2.1 7 (applyRequest (emptyFileStructure 0 7) "docs" "folder") rfl (by decide)⟩

/-- C15: on the freshly created empty document of a project, the schedule in which the
operations for `a.txt` and `b.txt` both fetch before either updates loses an insertion:
both fetch the empty tree, the first update stores `a.txt`, and the second update
replaces the whole `files` value, so the stored tree ends with `b.txt` only. Run one
after the other, the two operations store both nodes. -/
theorem C15_lost_update_interleaving :
    (fetchPhase sampleEnv freshStore (sampleRequest "a.txt" "file").fileInfo).2.map
      (fun document => document.files) = some .nil ∧
    (fetchPhase sampleEnv
      (fetchPhase sampleEnv freshStore (sampleRequest "a.txt" "file").fileInfo).1
      (sampleRequest "b.txt" "file").fileInfo).2.map (fun document => document.files)
        = some .nil ∧
    (interleavedCreate sampleEnv freshStore (sampleRequest "a.txt" "file")
        (sampleRequest "b.txt" "file")).map
      (fun stores => (stores.1.documents.map getPathsForFileStructure,
        stores.2.documents.map getPathsForFileStructure))
      = some ([["a.txt".toList]], [["b.txt".toList]]) ∧
    (createNewFileOrFolder sampleEnv
      (createNewFileOrFolder sampleEnv freshStore (sampleRequest "a.txt" "file")).1
      (sampleRequest "b.txt" "file")).1.documents.map getPathsForFileStructure
      = [["a.txt".toList, "b.txt".toList]] := by
  refine ⟨by decide, by decide, by decide, by decide⟩

/-- C16 (the code at the failing input): the gate returns true for `a/b/c.txt` on a
document without nodes, where the parent `a/b` resolves to `false`, and for `a/c.txt` on
a document holding the file `a`, where the parent is a file node; for `a/b/c.txt` on the
latter document it throws. On every input it is the negation of the existence test. -/
theorem C16_gate_accepts_missing_parent :
    _getSubFileStructure (.root (emptyFileStructure 0 0)) (dirname "a/b/c.txt".toList)
      = .ok .jsFalse ∧
    _isPathValidAndFileDoesNotExistAtPath (.root (emptyFileStructure 0 0)) "a/b/c.txt".toList
      = .ok true ∧
    _getSubFileStructure (.root (applyRequest (emptyFileStructure 0 0) "a" "file"))
      (dirname "a/c.txt".toList) = .ok (.node (newAddition (request "a" "file") "t".toList)) ∧
    _isPathValidAndFileDoesNotExistAtPath
      (.root (applyRequest (emptyFileStructure 0 0) "a" "file")) "a/c.txt".toList = .ok true ∧
    _isPathValidAndFileDoesNotExistAtPath
      (.root (applyRequest (emptyFileStructure 0 0) "a" "file")) "a/b/c.txt".toList
        = .error .typeError ∧
    (∀ (v : Val) (p : Str),
      _isPathValidAndFileDoesNotExistAtPath v p
        = (_isFileInFileStructre v p).map (fun b => !b)) := by
  refine ⟨by decide, by decide, by decide, by decide, by decide, ?_⟩
  intro v p
  unfold _isPathValidAndFileDoesNotExistAtPath
  simp only
  split
  · rfl
  · split <;> rfl

/-- C17 (counterexample): inserting the file `a/` into a document without nodes succeeds
and stores a node with name `a` and path `a/`, which is not the join of its name. -/
theorem C17_counterexample :
    Reachable (applyRequest (emptyFileStructure 0 0) "a/" "file") ∧
    ¬ (applyRequest (emptyFileStructure 0 0) "a/" "file").files.PathIsJoin [] := by
  have hfiles : (applyRequest (emptyFileStructure 0 0) "a/" "file").files
      = Files.plain "a".toList
          { name := "a".toList, created := "t".toList, author := none,
            type := "file".toList, path := "a/".toList } .nil := by decide
  refine ⟨Reachable.insert (emptyFileStructure 0 0) _ (request "a/" "file") "t".toList
    (Reachable.empty _ rfl) (by decide), ?_⟩
  rw [hfiles]
  intro h
  exact absurd h.1 (by decide)

/-- C17 (amended): in every document built by successful insertions, the name of every
node is the base name of its `path`, and the sanitized names of its ancestors, from the
root down, are the sanitized segments that lead to the parent of its `path` (those of
`path.dirname`, with `.` standing for the root). -/
theorem C17_path_invariant (fs : FileStructure) (hreach : Reachable fs) :
    fs.files.PathsOk [] :=
  Reachable.pathsOk fs hreach

/-- C17 (witness): the document holding the folder `docs` and the file
`docs/readme.txt`. -/
theorem C17_path_invariant_witness :
    Reachable (applyRequest (applyRequest (emptyFileStructure 0 0) "docs" "folder")
      "docs/readme.txt" "file") ∧
    (applyRequest (applyRequest (emptyFileStructure 0 0) "docs" "folder")
      "docs/readme.txt" "file").files.PathsOk [] :=
  have hreach : Reachable (applyRequest (applyRequest (emptyFileStructure 0 0) "docs"
      "folder") "docs/readme.txt" "file") :=
    Reachable.insert (applyRequest (emptyFileStructure 0 0) "docs" "folder") _
      (request "docs/readme.txt" "file") "t".toList
      (Reachable.insert (emptyFileStructure 0 0) _ (request "docs" "folder") "t".toList
        (Reachable.empty _ rfl) (by decide))
      (by decide)
  ⟨hreach, C17_path_invariant _ hreach⟩

/-- C18: in every document built by successful insertions, every node at every depth is
stored under the sanitized form of its name; and in every children mapping reached by
`traverseFileStructure`, a node stored under a key has that key equal to its sanitized
name, is the value read under the sanitized name, and is what the walk returns for a
segment equal to its name. -/
theorem C18_key_invariant (fs : FileStructure) (hreach : Reachable fs) :
    fs.files.KeysOk ∧
    ∀ (segs : List Str) (parent : Val) (children : Files) (key : Str) (n : Node),
      traverseFileStructure (.root fs) segs = .ok parent →
      parent.files = .ok (some children) →
      (key, n) ∈ children.entries →
      key = mongoIndex n.attrs.name ∧
      children.get (mongoIndex n.attrs.name) = some n ∧
      traverseFileStructure parent [n.attrs.name] = .ok (.node n) := by
  have hkeys := Reachable.keysOk fs hreach
  have hdist := Reachable.distinctKeys fs hreach
  refine ⟨hkeys, ?_⟩
  intro segs parent children key n hwalk hfiles hmem
  have hck : children.KeysOk :=
    traverse_keysOk segs (.root fs) parent
      (by intro f hf; simp only [Val.files, Except.ok.injEq, Option.some.injEq] at hf
          rw [← hf]; exact hkeys)
      hwalk children hfiles
  have hcd : children.DistinctKeys :=
    traverse_distinctKeys segs (.root fs) parent
      (by intro f hf; simp only [Val.files, Except.ok.injEq, Option.some.injEq] at hf
          rw [← hf]; exact hdist)
      hwalk children hfiles
  have hget := Files.get_of_mem_entries children hcd key n hmem
  have hkey := (Files.KeysOk_get key n children hck hget).1
  rw [hkey] at hget
  refine ⟨hkey, hget, ?_⟩
  rw [traverse_cons_node parent n.attrs.name [] children n hfiles hget]
  rfl

/-- C18 (witness): the file `readme.txt` under the folder `docs`. -/
theorem C18_key_invariant_witness :
    Reachable (applyRequest (applyRequest (emptyFileStructure 0 0) "docs" "folder")
      "docs/readme.txt" "file") ∧
    "readmetxt".toList
      = mongoIndex (newAddition (request "docs/readme.txt" "file") "t".toList).attrs.name ∧
    traverseFileStructure
      (.node ⟨(newAddition (request "docs" "folder") "t".toList).attrs,
        some (Files.entry "readmetxt".toList
          (newAddition (request "docs/readme.txt" "file") "t".toList) .nil)⟩)
      ["readme.txt".toList]
      = .ok (.node (newAddition (request "docs/readme.txt" "file") "t".toList)) :=
  have hreach : Reachable (applyRequest (applyRequest (emptyFileStructure 0 0) "docs"
      "folder") "docs/readme.txt" "file") :=
    Reachable.insert (applyRequest (emptyFileStructure 0 0) "docs" "folder") _
      (request "docs/readme.txt" "file") "t".toList
      (Reachable.insert (emptyFileStructure 0 0) _ (request "docs" "folder") "t".toList
        (Reachable.empty _ rfl) (by decide))
      (by decide)
  have h := (C18_key_invariant _ hreach).2 ["docs".toList]
    (.node ⟨(newAddition (request "docs" "folder") "t".toList).attrs,
      some (Files.entry "readmetxt".toList
        (newAddition (request "docs/readme.txt" "file") "t".toList) .nil)⟩)
    (Files.entry "readmetxt".toList
      (newAddition (request "docs/readme.txt" "file") "t".toList) .nil)
    "readmetxt".toList (newAddition (request "docs/readme.txt" "file") "t".toList)
    (by decide) (by decide) (by decide)
  ⟨hreach, h.1, h.2.2⟩

/-- C19: in every document built by successful insertions, at every depth a node has a
`files` attribute exactly when its type is `folder`; and an insertion whose parent
resolves to a node of another type fails with a `TypeError`, so nothing is attached
beneath such a node. -/
theorem C19_node_shape (fs : FileStructure) (hreach : Reachable fs) :
    fs.files.ShapeOk ∧
    ∀ (fileInfo : FileInfo) (created : Str) (parent : Node),
      traverseFileStructure (.root fs) (parentSegments fileInfo.filePath)
        = .ok (.node parent) →
      parent.attrs.type ≠ "folder".toList →
      _createNewFileOrFolder fileInfo none (some fs) created = .error .typeError := by
  have hshape := Reachable.shapeOk fs hreach
  refine ⟨hshape, ?_⟩
  intro fileInfo created parent hpar htype
  have hps : parent.ShapeOk :=
    traverse_shapeOk _ (.root fs) parent
      (by intro f hf; simp only [Val.files, Except.ok.injEq, Option.some.injEq] at hf
          rw [← hf]; exact hshape)
      hpar (by intro m hm; cases hm)
  have hnone : parent.files = none := by
    cases hpf : parent.files with
    | none => rfl
    | some c =>
      simp only [Node.ShapeOk, hpf] at hps
      exact absurd hps.1 htype
  simp only [parentSegments] at hpar
  have hex : _isFileInFileStructre (.root fs) fileInfo.filePath = .ok false := by
    rw [isFile_eq, hpar]
    simp [Val.files, hnone, anyNamed]
  unfold _createNewFileOrFolder
  by_cases hv : _isValidFileName fileInfo.filePath = true
  · simp only [hv, Bool.not_true, Bool.false_eq_true, if_false, gate_eq, hex, Except.map,
      Bool.not_false]
    unfold _appendToFileStructure
    simp only [hex, _getSubFileStructure, hpar, Val.files, hnone]
  · simp only [Bool.not_eq_true] at hv
    simp [hv, gate_eq, isFile_undefined, Except.map]

/-- C19 (witness): in the document holding the file `a`, inserting `a/b`. -/
theorem C19_node_shape_witness :
    Reachable (applyRequest (emptyFileStructure 0 0) "a" "file") ∧
    (applyRequest (emptyFileStructure 0 0) "a" "file").files.ShapeOk ∧
    traverseFileStructure (.root (applyRequest (emptyFileStructure 0 0) "a" "file"))
      (parentSegments (request "a/b" "file").filePath)
      = .ok (.node (newAddition (request "a" "file") "t".toList)) ∧
    (newAddition (request "a" "file") "t".toList).attrs.type ≠ "folder".toList ∧
    _createNewFileOrFolder (request "a/b" "file") none
      (some (applyRequest (emptyFileStructure 0 0) "a" "file")) "t".toList
      = .error .typeError :=
  have hreach : Reachable (applyRequest (emptyFileStructure 0 0) "a" "file") :=
    Reachable.insert (emptyFileStructure 0 0) _ (request "a" "file") "t".toList
      (Reachable.empty _ rfl) (by decide)
  ⟨hreach, (C19_node_shape _ hreach).1, by decide, by decide,
    (C19_node_shape _ hreach).2 (request "a/b" "file") "t".toList
      (newAddition (request "a" "file") "t".toList) (by decide) (by decide)⟩

/-- C20: `_getSubFileStructure` walks the non-empty `/`-separated segments of the path,
so a leading `/`, a trailing `/` and a doubled `/` do not change its result; for
instance `/a//b/` and `a/b` have the same segments. -/
theorem C20_resolve_ignores_empty_segments (v : Val) (p q : Str) :
    _getSubFileStructure v p = traverseFileStructure v (pathSegments p) ∧
    _getSubFileStructure v ('/' :: p) = _getSubFileStructure v p ∧
    _getSubFileStructure v (p ++ ['/']) = _getSubFileStructure v p ∧
    _getSubFileStructure v (p ++ '/' :: '/' :: q) = _getSubFileStructure v (p ++ '/' :: q) ∧
    _getSubFileStructure v "/a//b/".toList = _getSubFileStructure v "a/b".toList := by
  refine ⟨rfl, ?_, ?_, ?_, ?_⟩
  · simp only [_getSubFileStructure, pathSegments_leading_slash]
  · simp only [_getSubFileStructure, pathSegments_trailing_slash]
  · simp only [_getSubFileStructure, pathSegments_double_slash]
  · have h : pathSegments "/a//b/".toList = pathSegments "a/b".toList := by decide
    simp only [_getSubFileStructure, h]

end FileController
